import Mathlib

/-! # Verification of the mrrcrypt mirror-field cipher core

A shallow embedding of `src/modules/mirrorfield.c` and `src/modules/keyfile.c`.

The mirror field is a square grid of `N * N` cells (`GRID_SIZE = N` is a
compile-time constant of the original program, kept here as an explicit
parameter) surrounded by `4 * N` perimeter characters.  Cell codes are the
C `#define`s: `MIRROR_FORWARD = 0`, `MIRROR_STRAIGHT = 1`,
`MIRROR_BACKWARD = 2`, `MIRROR_NONE = 3`.

C arrays become Lean lists, reads become `List.getD` (C reads have no bounds
checks; all uses below are in bounds under the stated hypotheses), writes
become `List.set`.  The unbounded `while` loops of the source become
fuel-indexed recursions returning `Option`; `none` models a run of the loop
that has not finished within the fuel (sufficiency of the chosen fuel is
proved separately).  Machine integers are `Int` (the C `int` grid) and `Nat`
(the `unsigned char` perimeter bytes and all indices); every `%` the source
performs on non-negative ints coincides with `Int.emod` / `Nat.mod`.
-/

set_option autoImplicit false

namespace Mrrcrypt

/-! ## List helpers -/

theorem getD_set_self {α : Type} (l : List α) (i : ℕ) (v d : α) (h : i < l.length) :
    (l.set i v).getD i d = v := by
  simp [List.getD_eq_getElem?_getD, List.getElem?_set_self h]

theorem getD_set_ne {α : Type} (l : List α) (i j : ℕ) (v d : α) (h : i ≠ j) :
    (l.set i v).getD j d = l.getD j d := by
  simp [List.getD_eq_getElem?_getD, List.getElem?_set_ne h]

theorem getD_eq_getElem {α : Type} (l : List α) (i : ℕ) (d : α) (h : i < l.length) :
    l.getD i d = l[i] := by
  simp [List.getD_eq_getElem?_getD, List.getElem?_eq_getElem h]

/-! ## Directions and beams -/

/-- The four ray directions, `DIR_DOWN`, `DIR_LEFT`, `DIR_RIGHT`, `DIR_UP`. -/
inductive Dir : Type where
  | down
  | left
  | right
  | up
  deriving DecidableEq, Repr

/-- Reversal of a direction (proof device for the involution argument). -/
def Dir.rev : Dir → Dir
  | .down => .up
  | .up => .down
  | .left => .right
  | .right => .left

/-- A ray inside the grid: its current row, column, and incoming direction. -/
structure Beam where
  r : ℕ
  c : ℕ
  d : Dir
  deriving DecidableEq, Repr

/-- Direction change at a cell: the `switch (grid[t])` of `mirrorfield_crypt_char`
with cases `MIRROR_FORWARD` (0) and `MIRROR_BACKWARD` (2); any other code leaves
the direction unchanged. -/
def reflect (g : ℤ) (d : Dir) : Dir :=
  if g = 0 then
    match d with
    | .down => .left
    | .left => .down
    | .right => .up
    | .up => .right
  else if g = 2 then
    match d with
    | .down => .right
    | .left => .up
    | .right => .down
    | .up => .left
  else d

/-- Advance one step in direction `d` from cell `(r, c)`: the final `switch (direction)`
of the traversal loop.  `.inr e` means the step crossed the grid boundary and the end
character position is `e`. -/
def stepOut (N : ℕ) (r c : ℕ) (d : Dir) : Beam ⊕ ℕ :=
  match d with
  | .down => if r + 1 = N then .inr (c + 3 * N) else .inl ⟨r + 1, c, .down⟩
  | .left => if c = 0 then .inr (r + 2 * N) else .inl ⟨r, c - 1, .left⟩
  | .right => if c + 1 = N then .inr (r + N) else .inl ⟨r, c + 1, .right⟩
  | .up => if r = 0 then .inr c else .inl ⟨r - 1, c, .up⟩

/-- Flat grid index of a beam's cell, `t = (r * GRID_SIZE) + c`. -/
def cellIdx (N : ℕ) (b : Beam) : ℕ := b.r * N + b.c

/-- Entry beam for a perimeter slot, from the row/column/direction if-chain of
`mirrorfield_crypt_char`. -/
def entrySt (N s : ℕ) : Beam :=
  if s < N then ⟨0, s, .down⟩
  else if s < 2 * N then ⟨s - N, N - 1, .left⟩
  else if s < 3 * N then ⟨s - 2 * N, 0, .right⟩
  else ⟨N - 1, s - 3 * N, .up⟩

/-- The beam is inside the grid. -/
def Bvalid (N : ℕ) (b : Beam) : Prop := b.r < N ∧ b.c < N

/-! ## The traversal loop -/

/-- One character's walk through the mirror field: the `while (endCharPos < 0)` loop of
`mirrorfield_crypt_char`, with explicit fuel standing for the unbounded loop.  Each
iteration un-spins an already visited cell, reflects, spins and marks a mirror cell,
and advances; the result is the end character position and the mutated grid. -/
def traverse (N : ℕ) : ℕ → List ℤ → List Bool → Beam → Option (ℕ × List ℤ)
  | 0, _, _, _ => none
  | fuel + 1, grid, visited, b =>
    let t := b.r * N + b.c
    let grid1 := if visited.getD t false then grid.set t ((grid.getD t 0 + 2) % 3) else grid
    let d1 := reflect (grid1.getD t 0) b.d
    let grid2 := if grid1.getD t 0 ≠ 3 then grid1.set t ((grid1.getD t 0 + 1) % 3) else grid1
    let visited2 := if grid1.getD t 0 ≠ 3 then visited.set t true else visited
    match stepOut N b.r b.c d1 with
    | .inr e => some (e, grid2)
    | .inl b2 => traverse N fuel grid2 visited2 b2

/-- Static single step of the ray on a frozen grid (proof device): reflect at the
current cell and advance.  The actual loop `traverse` is proved to follow exactly
these steps, because a cell is un-spun back to its pre-character code before every
repeated reflection. -/
def sstep (N : ℕ) (g : List ℤ) (b : Beam) : Beam ⊕ ℕ :=
  stepOut N b.r b.c (reflect (g.getD (cellIdx N b) 0) b.d)

/-- Static traversal on a frozen grid, returning the end position and the list of
flat cell indices the ray passed through. -/
def sTrav (N : ℕ) (g : List ℤ) : ℕ → Beam → Option (ℕ × List ℕ)
  | 0, _ => none
  | fuel + 1, b =>
    match sstep N g b with
    | .inr e => some (e, [cellIdx N b])
    | .inl b2 =>
      match sTrav N g fuel b2 with
      | none => none
      | some (e, cells) => some (e, cellIdx N b :: cells)

/-- Value of a grid cell after one character: cells on the ray's path that held a
mirror are spun once, all other cells keep their value. -/
def spinVal (g : List ℤ) (cells : List ℕ) (u : ℕ) : ℤ :=
  if u ∈ cells ∧ g.getD u 0 ≠ 3 then (g.getD u 0 + 1) % 3 else g.getD u 0

/-- Time reversal of a beam: same cell, reversed outgoing direction (proof device
for the involution argument). -/
def revS (N : ℕ) (g : List ℤ) (b : Beam) : Beam :=
  ⟨b.r, b.c, (reflect (g.getD (cellIdx N b) 0) b.d).rev⟩

/-- Numeric code of a direction (proof device for counting beam states). -/
def dirCode : Dir → ℕ
  | .down => 0
  | .left => 1
  | .right => 2
  | .up => 3

/-- Injection of beams into `Fin (4 * N * N)` (proof device for the pigeonhole
argument that the traversal terminates). -/
def encodeBeam (N : ℕ) (b : Beam) : ℕ := (b.r * N + b.c) * 4 + dirCode b.d

/-- Predicate `Chain N g b L bend`: from beam `b` the static dynamics passes through exactly
the beams in `L` (both endpoints included) and ends at `bend` (proof device). -/
inductive Chain (N : ℕ) (g : List ℤ) : Beam → List Beam → Beam → Prop
  | single (b : Beam) : Chain N g b [b] b
  | cons {b b1 bend : Beam} {L : List Beam} (h : sstep N g b = .inl b1)
      (hc : Chain N g b1 L bend) : Chain N g b (b :: L) bend

/-! ## The character roll -/

/-- The escape loops of `mirrorfield_roll_chars`: while the candidate roll position
collides with one of the four forbidden positions, add `GRID_SIZE / 2` modulo
`GRID_SIZE * 4`.  Fuel models the unbounded `while`. -/
def escape (N a b : ℕ) (c d : ℤ) : ℕ → ℕ → Option ℕ
  | 0, _ => none
  | fuel + 1, x =>
    if x = a ∨ x = b ∨ (x : ℤ) = c ∨ (x : ℤ) = d then
      escape N a b c d fuel ((x + N / 2) % (4 * N))
    else some x

/-- Fuel given to each escape loop inside `mirrorfield_roll_chars`; proved sufficient
whenever `2 ≤ N`. -/
def escapeFuel (N : ℕ) : ℕ := 4 * N + 5

/-- The three-assignment swap through `tempChar` used by `mirrorfield_roll_chars`. -/
def swapL (l : List ℕ) (i j : ℕ) : List ℕ :=
  (l.set i (l.getD j 0)).set j (l.getD i 0)

/-- Function `mirrorfield_roll_chars`: compute the two roll positions from the perimeter
bytes at and next to the start/end positions, move each off the four forbidden
positions, swap (larger perimeter byte first), and remember the start/end
positions.  Returns the new perimeter and the new
`(lastStartCharPos, lastEndCharPos)` pair. -/
def mirrorfield_roll_chars (N : ℕ) (perim : List ℕ) (startCharPos endCharPos : ℕ)
    (lastStartCharPos lastEndCharPos : ℤ) : Option (List ℕ × ℤ × ℤ) :=
  let startRoll0 := (startCharPos + perim.getD startCharPos 0 +
    perim.getD (if startCharPos = 0 then startCharPos + 1 else startCharPos - 1) 0) % (4 * N)
  let endRoll0 := (endCharPos + perim.getD endCharPos 0 +
    perim.getD (if endCharPos = 0 then endCharPos + 1 else endCharPos - 1) 0) % (4 * N)
  match escape N startCharPos endCharPos lastStartCharPos lastEndCharPos
      (escapeFuel N) startRoll0,
    escape N endCharPos startCharPos lastEndCharPos lastStartCharPos
      (escapeFuel N) endRoll0 with
  | some rs, some re =>
    let p1 := if perim.getD endCharPos 0 < perim.getD startCharPos 0 then
        swapL (swapL perim startCharPos rs) endCharPos re
      else
        swapL (swapL perim endCharPos re) startCharPos rs
    some (p1, (startCharPos : ℤ), (endCharPos : ℤ))
  | _, _ => none

/-! ## Engine state and the per-character transform -/

/-- The engine's mutable state: the two arrays plus the three cross-character
statics `evenodd`, `lastStartCharPos`, `lastEndCharPos`. -/
structure MFState where
  grid : List ℤ
  perim : List ℕ
  evenodd : ℕ
  lastStart : ℤ
  lastEnd : ℤ
  deriving DecidableEq, Repr

/-- A freshly loaded engine: the C statics start at `evenodd = 0`,
`lastStartCharPos = lastEndCharPos = -1`. -/
def freshState (grid : List ℤ) (perim : List ℕ) : MFState := ⟨grid, perim, 0, -1, -1⟩

/-- Function `mirrorfield_crypt_char`: toggle `evenodd`, scan the perimeter for the input
byte, traverse the grid, apply the decryption-preserving override, roll, and emit.
The source performs no bounds check after the scan; a failed scan leaves
`startCharPos = 4 * N` and the subsequent behaviour is undefined (uninitialised
`direction`, out-of-bounds reads), modelled here by `none`. -/
def mirrorfield_crypt_char (N : ℕ) (st : MFState) (ch : ℕ) : Option (ℕ × MFState) :=
  let evenodd := (st.evenodd + 1) % 2
  let startCharPos := st.perim.findIdx (fun x => x == ch)
  if startCharPos < 4 * N then
    match traverse N (4 * N * N) st.grid (List.replicate (N * N) false)
        (entrySt N startCharPos) with
    | none => none
    | some (endCharPos, grid2) =>
      let ech0 := st.perim.getD endCharPos 0
      let ech := if (st.perim.getD startCharPos 0 = startCharPos ∨
          st.perim.getD endCharPos 0 = endCharPos) ∧ evenodd = 1 then
          st.perim.getD startCharPos 0
        else ech0
      match mirrorfield_roll_chars N st.perim startCharPos endCharPos
          st.lastStart st.lastEnd with
      | none => none
      | some (perim2, nls, nle) => some (ech, ⟨grid2, perim2, evenodd, nls, nle⟩)
  else none

/-- Feeding a list of characters through one engine, one `crypt` call each. -/
def crypt_stream (N : ℕ) (st : MFState) : List ℕ → Option (List ℕ × MFState)
  | [] => some ([], st)
  | ch :: rest =>
    match mirrorfield_crypt_char N st ch with
    | none => none
    | some (ec, st1) =>
      match crypt_stream N st1 rest with
      | none => none
      | some (ecs, st2) => some (ec :: ecs, st2)

/-! ## Loading and validation -/

/-- The duplicate check of `mirrorfield_validate`: the double loop comparing every
perimeter slot with every later slot. -/
def distinctB : List ℕ → Bool
  | [] => true
  | x :: xs => !(xs.contains x) && distinctB xs

/-- Function `mirrorfield_validate`: every grid cell within `0..3` and no duplicate
perimeter bytes. -/
def mirrorfield_validate (grid : List ℤ) (perim : List ℕ) : Bool :=
  grid.all (fun g => !(decide (g < 0) || decide (3 < g))) && distinctB perim

/-- The load counter plus the two arrays being filled by `mirrorfield_set`. -/
structure LoadState where
  idx : ℕ
  grid : List ℤ
  perim : List ℕ
  deriving DecidableEq, Repr

/-- Function `mirrorfield_init`: both arrays zeroed, no characters consumed yet. -/
def mirrorfield_init (N : ℕ) : LoadState :=
  ⟨0, List.replicate (N * N) 0, List.replicate (4 * N) 0⟩

/-- One call of `mirrorfield_set`.  The source keeps `static int i = -1` and
pre-increments it, so the n-th call (counting from 0) works with `i = n`; `idx`
records that call count.  Byte values: `/` is 47, `\` is 92, `-` is 45, space
is 32. -/
def mirrorfield_set (N : ℕ) (st : LoadState) (ch : ℕ) : LoadState × Bool :=
  let i := st.idx
  if i < N * N then
    let t := (i / N) * N + i % N
    if ch = 47 then (⟨i + 1, st.grid.set t 0, st.perim⟩, true)
    else if ch = 92 then (⟨i + 1, st.grid.set t 2, st.perim⟩, true)
    else if ch = 45 then (⟨i + 1, st.grid.set t 1, st.perim⟩, true)
    else if ch = 32 then (⟨i + 1, st.grid.set t 3, st.perim⟩, true)
    else (⟨i + 1, st.grid, st.perim⟩, false)
  else if i - N * N < 4 * N then
    (⟨i + 1, st.grid, st.perim.set (i - N * N) ch⟩, true)
  else (⟨i + 1, st.grid, st.perim⟩, false)

/-- A key that the engine accepts: both arrays have their full size and
`mirrorfield_validate` succeeds on them. -/
def goodState (N : ℕ) (st : MFState) : Prop :=
  st.grid.length = N * N ∧ st.perim.length = 4 * N ∧
    mirrorfield_validate st.grid st.perim = true

/-- Modelled from the spec wording of the roll procedure: the neighbour helper
`neigh(x) = x + 1` if `x = 0`, else `x - 1`. -/
def neigh (x : ℕ) : ℕ := if x = 0 then x + 1 else x - 1

/-- Two engine states that differ at most by swapping the two remembered roll
positions.  The roll only ever tests membership in the set of the two previous
positions, so such states behave identically; an encrypting engine and the
decrypting engine tracking it stay related this way. -/
def simState (st1 st2 : MFState) : Prop :=
  st1.grid = st2.grid ∧ st1.perim = st2.perim ∧ st1.evenodd = st2.evenodd ∧
    ((st1.lastStart = st2.lastStart ∧ st1.lastEnd = st2.lastEnd) ∨
      (st1.lastStart = st2.lastEnd ∧ st1.lastEnd = st2.lastStart))

/-! ## The key-file shuffle -/

/-- The rejection loop inside `keyfile_shuffle_string`: draw `rand() % len` until the
draw differs from `sIndex`.  The pseudo-random source is modelled as a list of
draws consumed left to right; an exhausted list models a run of the loop that
never terminates. -/
def rejectDraw (len sIndex : ℕ) : List ℕ → Option (ℕ × List ℕ)
  | [] => none
  | r :: rest =>
    let rIndex := r % len
    if rIndex = sIndex then rejectDraw len sIndex rest else some (rIndex, rest)

/-- The `for (i = 0; i < p; ++i)` loop of `keyfile_shuffle_string`: each iteration
writes the carried character at a fresh index and picks up the character that was
there. -/
def shuffleLoop (len sIndex : ℕ) : ℕ → List ℕ → ℕ → List ℕ → Option (List ℕ × ℕ)
  | 0, str, c1, _ => some (str, c1)
  | p + 1, str, c1, rands =>
    match rejectDraw len sIndex rands with
    | none => none
    | some (rIndex, rands1) =>
      shuffleLoop len sIndex p (str.set rIndex c1) (str.getD rIndex 0) rands1

/-- Function `keyfile_shuffle_string`: choose `sIndex`, carry `str[sIndex]` through `p`
swap iterations, and finally put the carry back at `sIndex`. -/
def keyfile_shuffle_string (str : List ℕ) (p : ℕ) (rands : List ℕ) : Option (List ℕ) :=
  match rands with
  | [] => none
  | r :: rest =>
    let sIndex := r % str.length
    match shuffleLoop str.length sIndex p str (str.getD sIndex 0) rest with
    | none => none
    | some (str1, c1) => some (str1.set sIndex c1)

/-! ## Direction and reflection basics -/

theorem Dir.rev_rev (d : Dir) : d.rev.rev = d := by
  cases d <;> rfl

/-- Reflection is time-symmetric: reversing the outgoing direction and reflecting
again yields the reversed incoming direction, whatever the cell code. -/
theorem reflect_rev (g : ℤ) (d : Dir) : reflect g (reflect g d).rev = d.rev := by
  by_cases h0 : g = 0
  · cases d <;> simp [reflect, h0] <;> rfl
  · by_cases h2 : g = 2
    · cases d <;> simp [reflect, h0, h2] <;> rfl
    · simp [reflect, h0, h2]

theorem reflect_eta (g : ℤ) (b : Beam) :
    reflect g (reflect g b.d).rev = b.d.rev := reflect_rev g b.d

theorem revS_revS (N : ℕ) (g : List ℤ) (b : Beam) : revS N g (revS N g b) = b := by
  cases b with
  | mk r c d => simp [revS, cellIdx, reflect_rev, Dir.rev_rev]

theorem cellIdx_revS (N : ℕ) (g : List ℤ) (b : Beam) :
    cellIdx N (revS N g b) = cellIdx N b := rfl

/-! ## Multiset facts about `List.set` and `swapL` -/

theorem cons_multiset_set (l : List ℕ) (i : ℕ) (v : ℕ) (h : i < l.length) :
    (l.getD i 0 ::ₘ (↑(l.set i v) : Multiset ℕ)) = v ::ₘ (↑l : Multiset ℕ) := by
  induction l generalizing i with
  | nil => simp at h
  | cons x xs ih =>
    cases i with
    | zero =>
      simp only [List.getD_cons_zero, List.set_cons_zero, ← Multiset.cons_coe]
      exact Multiset.cons_swap x v ↑xs
    | succ n =>
      have hn : n < xs.length := by simpa using h
      simp only [List.getD_cons_succ, List.set_cons_succ, ← Multiset.cons_coe]
      rw [Multiset.cons_swap, ih n hn, Multiset.cons_swap]

theorem multiset_set_self (l : List ℕ) (i : ℕ) (h : i < l.length) :
    (↑(l.set i (l.getD i 0)) : Multiset ℕ) = (↑l : Multiset ℕ) := by
  have := cons_multiset_set l i (l.getD i 0) h
  exact (Multiset.cons_inj_right _).mp this

theorem swapL_length (l : List ℕ) (i j : ℕ) : (swapL l i j).length = l.length := by
  simp [swapL]

theorem swapL_multiset (l : List ℕ) (i j : ℕ) (hi : i < l.length) (hj : j < l.length) :
    (↑(swapL l i j) : Multiset ℕ) = (↑l : Multiset ℕ) := by
  have hbj : (l.set i (l.getD j 0)).getD j 0 = l.getD j 0 := by
    by_cases hij : i = j
    · subst hij; exact getD_set_self l i _ 0 hi
    · exact getD_set_ne l i j _ 0 hij
  have h1 := cons_multiset_set (l.set i (l.getD j 0)) j (l.getD i 0)
    (by simpa using hj)
  have h2 := cons_multiset_set l i (l.getD j 0) hi
  rw [hbj] at h1
  have h3 : (l.getD j 0 ::ₘ (↑(swapL l i j) : Multiset ℕ)) =
      l.getD j 0 ::ₘ (↑l : Multiset ℕ) := by
    calc l.getD j 0 ::ₘ (↑(swapL l i j) : Multiset ℕ)
        = l.getD i 0 ::ₘ (↑(l.set i (l.getD j 0)) : Multiset ℕ) := h1
      _ = l.getD j 0 ::ₘ (↑l : Multiset ℕ) := h2
  exact (Multiset.cons_inj_right _).mp h3

/-! ## Validation: C5 -/

theorem distinctB_iff (l : List ℕ) : distinctB l = true ↔ l.Nodup := by
  induction l with
  | nil => simp [distinctB]
  | cons x xs ih =>
    simp [distinctB, ih, List.nodup_cons]

/-- Claim C5: `mirrorfield_validate` succeeds iff every grid cell value lies in
`0..3` and the perimeter bytes are pairwise distinct. -/
theorem validate_iff_range_and_nodup (grid : List ℤ) (perim : List ℕ) :
    mirrorfield_validate grid perim = true ↔
      (∀ g ∈ grid, 0 ≤ g ∧ g ≤ 3) ∧ perim.Nodup := by
  simp only [mirrorfield_validate, Bool.and_eq_true, List.all_eq_true, distinctB_iff]
  constructor
  · rintro ⟨h1, h2⟩
    refine ⟨fun g hg => ?_, h2⟩
    have := h1 g hg
    simp only [Bool.not_eq_true', Bool.or_eq_false_iff, decide_eq_false_iff_not] at this
    omega
  · rintro ⟨h1, h2⟩
    refine ⟨fun g hg => ?_, h2⟩
    have := h1 g hg
    simp only [Bool.not_eq_true', Bool.or_eq_false_iff, decide_eq_false_iff_not]
    omega

/-! ## Loading: C7 -/

/-- Claim C7 (amended): the first `N * N` calls of `mirrorfield_set` store the cell
code of the glyph, mapping `/`, `\`, `-`, space (bytes 47, 92, 45, 32) to codes
0, 2, 1, 3 respectively, and fail on any other byte; the next `4 * N` calls store
the byte verbatim into the perimeter; every later call fails. -/
theorem mirrorfield_set_spec (N : ℕ) (st : LoadState) (ch : ℕ) :
    (st.idx < N * N →
      mirrorfield_set N st ch =
        if ch = 47 then (⟨st.idx + 1, st.grid.set st.idx 0, st.perim⟩, true)
        else if ch = 92 then (⟨st.idx + 1, st.grid.set st.idx 2, st.perim⟩, true)
        else if ch = 45 then (⟨st.idx + 1, st.grid.set st.idx 1, st.perim⟩, true)
        else if ch = 32 then (⟨st.idx + 1, st.grid.set st.idx 3, st.perim⟩, true)
        else (⟨st.idx + 1, st.grid, st.perim⟩, false)) ∧
    (N * N ≤ st.idx → st.idx < N * N + 4 * N →
      mirrorfield_set N st ch =
        (⟨st.idx + 1, st.grid, st.perim.set (st.idx - N * N) ch⟩, true)) ∧
    (N * N + 4 * N ≤ st.idx →
      mirrorfield_set N st ch = (⟨st.idx + 1, st.grid, st.perim⟩, false)) := by
  have hidx : (st.idx / N) * N + st.idx % N = st.idx := by
    rw [Nat.mul_comm]
    exact Nat.div_add_mod st.idx N
  refine ⟨fun hlt => ?_, fun hge hlt => ?_, fun hge => ?_⟩
  · simp only [mirrorfield_set, if_pos hlt, hidx]
  · have h1 : ¬ st.idx < N * N := by omega
    have h2 : st.idx - N * N < 4 * N := by omega
    simp only [mirrorfield_set, if_neg h1, if_pos h2]
  · have h1 : ¬ st.idx < N * N := by omega
    have h2 : ¬ st.idx - N * N < 4 * N := by omega
    simp only [mirrorfield_set, if_neg h1, if_neg h2]

/-- Witness for `mirrorfield_set_spec` at a concrete state. -/
theorem mirrorfield_set_spec_witness :
    (⟨0, List.replicate 4 0, List.replicate 8 0⟩ : LoadState).idx < 2 * 2 ∧
      mirrorfield_set 2 ⟨0, List.replicate 4 0, List.replicate 8 0⟩ 45 =
        (⟨1, (List.replicate 4 0).set 0 1, List.replicate 8 0⟩, true) := by
  refine ⟨by decide, ?_⟩
  have h := (mirrorfield_set_spec 2 ⟨0, List.replicate 4 0, List.replicate 8 0⟩ 45).1
    (by decide)
  rw [h]
  decide

/-- Counterexample to claim C7 as stated: the backslash byte (92) is stored as
cell code 2, not 1, by the first-phase `mirrorfield_set` call. -/
theorem mirrorfield_set_backslash_code :
    (mirrorfield_set 2 (mirrorfield_init 2) 92).2 = true ∧
      (mirrorfield_set 2 (mirrorfield_init 2) 92).1.grid.getD 0 0 = 2 ∧
      ((mirrorfield_set 2 (mirrorfield_init 2) 92).1.grid.getD 0 0 ≠ 1) := by
  decide

/-! ## The key-file shuffle: C9 -/

theorem rejectDraw_spec (len sIndex : ℕ) (hlen : 0 < len) :
    ∀ (rands : List ℕ) (rIndex : ℕ) (rest : List ℕ),
      rejectDraw len sIndex rands = some (rIndex, rest) →
      rIndex ≠ sIndex ∧ rIndex < len := by
  intro rands
  induction rands with
  | nil => intro rIndex rest h; simp [rejectDraw] at h
  | cons r rs ih =>
    intro rIndex rest h
    simp only [rejectDraw] at h
    by_cases hr : r % len = sIndex
    · rw [if_pos hr] at h
      exact ih rIndex rest h
    · rw [if_neg hr] at h
      simp only [Option.some.injEq, Prod.mk.injEq] at h
      obtain ⟨h1, h2⟩ := h
      subst h1
      exact ⟨hr, Nat.mod_lt r hlen⟩

theorem set_set_multiset_exchange (str : List ℕ) (sIndex rIndex c1 : ℕ)
    (hs : sIndex < str.length) (hr : rIndex < str.length) (hne : rIndex ≠ sIndex) :
    (↑((str.set rIndex c1).set sIndex (str.getD rIndex 0)) : Multiset ℕ) =
      (↑(str.set sIndex c1) : Multiset ℕ) := by
  have h1 := cons_multiset_set (str.set rIndex c1) sIndex (str.getD rIndex 0)
    (by simpa using hs)
  have ha : (str.set rIndex c1).getD sIndex 0 = str.getD sIndex 0 :=
    getD_set_ne str rIndex sIndex c1 0 hne
  rw [ha] at h1
  have h3 := cons_multiset_set str rIndex c1 hr
  have h2 := cons_multiset_set str sIndex c1 hs
  have h4 : str.getD sIndex 0 ::ₘ
      (↑((str.set rIndex c1).set sIndex (str.getD rIndex 0)) : Multiset ℕ) =
      str.getD sIndex 0 ::ₘ (↑(str.set sIndex c1) : Multiset ℕ) := by
    calc str.getD sIndex 0 ::ₘ
        (↑((str.set rIndex c1).set sIndex (str.getD rIndex 0)) : Multiset ℕ)
        = str.getD rIndex 0 ::ₘ (↑(str.set rIndex c1) : Multiset ℕ) := h1
      _ = c1 ::ₘ (↑str : Multiset ℕ) := h3
      _ = str.getD sIndex 0 ::ₘ (↑(str.set sIndex c1) : Multiset ℕ) := h2.symm
  exact (Multiset.cons_inj_right _).mp h4

theorem shuffleLoop_multiset (len sIndex : ℕ) (hlen0 : 0 < len) (hsi : sIndex < len) :
    ∀ (p : ℕ) (str : List ℕ) (c1 : ℕ) (rands : List ℕ) (str1 : List ℕ) (c2 : ℕ),
      len = str.length →
      shuffleLoop len sIndex p str c1 rands = some (str1, c2) →
      (↑(str1.set sIndex c2) : Multiset ℕ) = (↑(str.set sIndex c1) : Multiset ℕ) ∧
        str1.length = str.length := by
  intro p
  induction p with
  | zero =>
    intro str c1 rands str1 c2 hl h
    simp only [shuffleLoop, Option.some.injEq, Prod.mk.injEq] at h
    obtain ⟨h1, h2⟩ := h
    subst h1; subst h2
    exact ⟨rfl, rfl⟩
  | succ p ih =>
    intro str c1 rands str1 c2 hl h
    simp only [shuffleLoop] at h
    cases hrd : rejectDraw len sIndex rands with
    | none => rw [hrd] at h; exact absurd h (by simp)
    | some v =>
      obtain ⟨rIndex, rands1⟩ := v
      rw [hrd] at h
      obtain ⟨hne, hrlt⟩ := rejectDraw_spec len sIndex hlen0 rands rIndex rands1 hrd
      have hstep := ih (str.set rIndex c1) (str.getD rIndex 0) rands1 str1 c2
        (by simpa using hl) h
      refine ⟨?_, by simpa using hstep.2⟩
      rw [hstep.1]
      exact set_set_multiset_exchange str sIndex rIndex c1 (hl ▸ hsi) (hl ▸ hrlt) hne

/-- Claim C9: for a non-empty string, any iteration count, and any sequence of
random draws on which the shuffle returns, the returned string holds exactly the
same multiset of characters as the input. -/
theorem keyfile_shuffle_string_multiset (str : List ℕ) (p : ℕ) (rands : List ℕ)
    (out : List ℕ) (hne : str ≠ [])
    (h : keyfile_shuffle_string str p rands = some out) :
    (↑out : Multiset ℕ) = (↑str : Multiset ℕ) := by
  have hlen0 : 0 < str.length := List.length_pos.mpr hne
  cases rands with
  | nil => simp [keyfile_shuffle_string] at h
  | cons r rest =>
    simp only [keyfile_shuffle_string] at h
    set sIndex := r % str.length with hsi
    have hslt : sIndex < str.length := Nat.mod_lt r hlen0
    cases hsh : shuffleLoop str.length sIndex p str (str.getD sIndex 0) rest with
    | none => rw [hsh] at h; exact absurd h (by simp)
    | some v =>
      obtain ⟨str1, c1⟩ := v
      rw [hsh] at h
      simp only [Option.some.injEq] at h
      subst h
      obtain ⟨hm, hlen⟩ := shuffleLoop_multiset str.length sIndex hlen0 hslt
        p str (str.getD sIndex 0) rest str1 c1 rfl hsh
      rw [hm]
      exact multiset_set_self str sIndex hslt

/-- Witness for `keyfile_shuffle_string_multiset` on a concrete run. -/
theorem keyfile_shuffle_string_multiset_witness :
    ([3, 1, 2] : List ℕ) ≠ [] ∧
      (↑([3, 1, 2] : List ℕ) : Multiset ℕ) = (↑([1, 2, 3] : List ℕ) : Multiset ℕ) := by
  refine ⟨by decide, ?_⟩
  have h : keyfile_shuffle_string [1, 2, 3] 2 [0, 1, 2, 0] = some [3, 1, 2] := by decide
  exact keyfile_shuffle_string_multiset [1, 2, 3] 2 [0, 1, 2, 0] [3, 1, 2] (by decide) h

/-! ## The escape loops of the roll -/

theorem mod_shift (N x j : ℕ) :
    ((x + N / 2) % (4 * N) + j * (N / 2)) % (4 * N) = (x + (j + 1) * (N / 2)) % (4 * N) := by
  rw [Nat.mod_add_mod]
  congr 1
  ring

/-- The escape loop is insensitive to permuting its four forbidden positions. -/
theorem escape_perm (N a b : ℕ) (c d : ℤ) (a2 b2 : ℕ) (c2 d2 : ℤ)
    (hiff : ∀ x : ℕ, (x = a ∨ x = b ∨ (x : ℤ) = c ∨ (x : ℤ) = d) ↔
      (x = a2 ∨ x = b2 ∨ (x : ℤ) = c2 ∨ (x : ℤ) = d2)) :
    ∀ fuel x, escape N a b c d fuel x = escape N a2 b2 c2 d2 fuel x := by
  intro fuel
  induction fuel with
  | zero => intro x; rfl
  | succ n ih =>
    intro x
    simp only [escape]
    by_cases hx : x = a ∨ x = b ∨ (x : ℤ) = c ∨ (x : ℤ) = d
    · rw [if_pos hx, if_pos ((hiff x).mp hx), ih]
    · rw [if_neg hx, if_neg (fun hh => hx ((hiff x).mpr hh))]

/-- What a successful escape loop returns: the first multiple-of-`N / 2` shift of
the initial position that avoids all four forbidden positions. -/
theorem escape_spec (N a b : ℕ) (c d : ℤ) :
    ∀ (fuel x y : ℕ), x < 4 * N → escape N a b c d fuel x = some y →
      ∃ k, y = (x + k * (N / 2)) % (4 * N) ∧
        ¬(y = a ∨ y = b ∨ (y : ℤ) = c ∨ (y : ℤ) = d) ∧
        ∀ j < k, ((x + j * (N / 2)) % (4 * N) = a ∨ (x + j * (N / 2)) % (4 * N) = b ∨
          (((x + j * (N / 2)) % (4 * N) : ℕ) : ℤ) = c ∨
          (((x + j * (N / 2)) % (4 * N) : ℕ) : ℤ) = d) := by
  intro fuel
  induction fuel with
  | zero => intro x y _ h; exact absurd h (by simp [escape])
  | succ n ih =>
    intro x y hx h
    simp only [escape] at h
    by_cases hfx : x = a ∨ x = b ∨ (x : ℤ) = c ∨ (x : ℤ) = d
    · rw [if_pos hfx] at h
      have hx2 : (x + N / 2) % (4 * N) < 4 * N := Nat.mod_lt _ (by omega)
      obtain ⟨k, hk1, hk2, hk3⟩ := ih ((x + N / 2) % (4 * N)) y hx2 h
      refine ⟨k + 1, ?_, hk2, ?_⟩
      · rw [hk1, mod_shift]
      · intro j hj
        cases j with
        | zero =>
          have : (x + 0 * (N / 2)) % (4 * N) = x := by
            simp [Nat.mod_eq_of_lt hx]
          rw [this]
          exact hfx
        | succ j2 =>
          have hj2 : j2 < k := by omega
          have := hk3 j2 hj2
          rw [mod_shift] at this
          exact this
    · rw [if_neg hfx] at h
      simp only [Option.some.injEq] at h
      subst h
      refine ⟨0, ?_, hfx, by omega⟩
      simp [Nat.mod_eq_of_lt hx]

/-- The escape loop succeeds as soon as some shift within the fuel is free. -/
theorem escape_of_exists_free (N a b : ℕ) (c d : ℤ) :
    ∀ (fuel x : ℕ), x < 4 * N →
      (∃ k, k < fuel ∧ ¬((x + k * (N / 2)) % (4 * N) = a ∨
        (x + k * (N / 2)) % (4 * N) = b ∨
        (((x + k * (N / 2)) % (4 * N) : ℕ) : ℤ) = c ∨
        (((x + k * (N / 2)) % (4 * N) : ℕ) : ℤ) = d)) →
      ∃ y, escape N a b c d fuel x = some y := by
  intro fuel
  induction fuel with
  | zero => intro x _ h; omega
  | succ n ih =>
    intro x hx h
    obtain ⟨k, hk, hfree⟩ := h
    by_cases hfx : x = a ∨ x = b ∨ (x : ℤ) = c ∨ (x : ℤ) = d
    · have hk0 : k ≠ 0 := by
        intro h0
        subst h0
        apply hfree
        have : (x + 0 * (N / 2)) % (4 * N) = x := by simp [Nat.mod_eq_of_lt hx]
        rw [this]
        exact hfx
      obtain ⟨k2, rfl⟩ := Nat.exists_eq_succ_of_ne_zero hk0
      have hx2 : (x + N / 2) % (4 * N) < 4 * N := Nat.mod_lt _ (by omega)
      have hfree2 : ¬(((x + N / 2) % (4 * N) + k2 * (N / 2)) % (4 * N) = a ∨
          ((x + N / 2) % (4 * N) + k2 * (N / 2)) % (4 * N) = b ∨
          ((((x + N / 2) % (4 * N) + k2 * (N / 2)) % (4 * N) : ℕ) : ℤ) = c ∨
          ((((x + N / 2) % (4 * N) + k2 * (N / 2)) % (4 * N) : ℕ) : ℤ) = d) := by
        rw [mod_shift]
        exact hfree
      obtain ⟨y, hy⟩ := ih ((x + N / 2) % (4 * N)) hx2 ⟨k2, by omega, hfree2⟩
      refine ⟨y, ?_⟩
      simp only [escape, if_pos hfx]
      exact hy
    · exact ⟨x, by simp only [escape, if_neg hfx]⟩

theorem four_class_eq (p q a b c d : ℤ)
    (hp : p = a ∨ p = b ∨ p = c ∨ p = d) (hq : q = a ∨ q = b ∨ q = c ∨ q = d)
    (h : (if p = a then (0 : Fin 4) else if p = b then 1 else if p = c then 2 else 3) =
      (if q = a then (0 : Fin 4) else if q = b then 1 else if q = c then 2 else 3)) :
    p = q := by
  by_cases h1 : p = a <;> by_cases h2 : p = b <;> by_cases h3 : p = c <;>
    by_cases h4 : q = a <;> by_cases h5 : q = b <;> by_cases h6 : q = c <;>
    simp_all

/-- Five successive shifts by `N / 2` modulo `4 * N` are pairwise distinct
when `2 ≤ N`. -/
theorem shifts_distinct (N x : ℕ) (hN : 2 ≤ N) :
    ∀ i j, i < j → j ≤ 4 →
      (x + i * (N / 2)) % (4 * N) ≠ (x + j * (N / 2)) % (4 * N) := by
  intro i j hij hj4 heq
  have hle : x + i * (N / 2) ≤ x + j * (N / 2) := by
    have := Nat.mul_le_mul_right (N / 2) (Nat.le_of_lt hij)
    omega
  have hmod : x + i * (N / 2) ≡ x + j * (N / 2) [MOD 4 * N] := heq
  have hdvd := (Nat.modEq_iff_dvd' hle).mp hmod
  have hmono := Nat.mul_le_mul_right (N / 2) (Nat.le_of_lt hij)
  have hsub : x + j * (N / 2) - (x + i * (N / 2)) = (j - i) * (N / 2) := by
    rw [Nat.sub_mul]
    omega
  rw [hsub] at hdvd
  have hpos : 0 < (j - i) * (N / 2) := Nat.mul_pos (by omega) (by omega)
  have hlt : (j - i) * (N / 2) < 4 * N := by
    have h4 : (j - i) * (N / 2) ≤ 4 * (N / 2) :=
      Nat.mul_le_mul_right (N / 2) (by omega)
    omega
  have := Nat.le_of_dvd hpos hdvd
  omega

/-- The escape loop of `mirrorfield_roll_chars` always terminates within its fuel
when `2 ≤ N`: among five successive shifts at most four can collide. -/
theorem escape_total (N a b : ℕ) (c d : ℤ) (hN : 2 ≤ N) (x : ℕ) (hx : x < 4 * N) :
    ∃ y, escape N a b c d (escapeFuel N) x = some y := by
  apply escape_of_exists_free N a b c d (escapeFuel N) x hx
  by_contra hall
  push_neg at hall
  have hforb : ∀ k : ℕ, k < escapeFuel N →
      ((x + k * (N / 2)) % (4 * N) = a ∨ (x + k * (N / 2)) % (4 * N) = b ∨
        (((x + k * (N / 2)) % (4 * N) : ℕ) : ℤ) = c ∨
        (((x + k * (N / 2)) % (4 * N) : ℕ) : ℤ) = d) := by
    intro k hk
    have := hall k hk
    tauto
  have hfuel : ∀ k : ℕ, k ≤ 4 → k < escapeFuel N := by
    intro k hk
    simp only [escapeFuel]
    omega
  set v : ℕ → ℤ := fun k => (((x + k * (N / 2)) % (4 * N) : ℕ) : ℤ) with hv
  have hmem : ∀ k : ℕ, k ≤ 4 →
      v k = (a : ℤ) ∨ v k = (b : ℤ) ∨ v k = c ∨ v k = d := by
    intro k hk
    have := hforb k (hfuel k hk)
    rcases this with h | h | h | h
    · exact Or.inl (by simp only [hv]; exact_mod_cast h)
    · exact Or.inr (Or.inl (by simp only [hv]; exact_mod_cast h))
    · exact Or.inr (Or.inr (Or.inl h))
    · exact Or.inr (Or.inr (Or.inr h))
  set f : Fin 5 → Fin 4 := fun k =>
    if v k = (a : ℤ) then 0 else if v k = (b : ℤ) then 1 else if v k = c then 2 else 3
    with hf
  obtain ⟨k, l, hkl, hfkl⟩ := Fintype.exists_ne_map_eq_of_card_lt f (by simp)
  have hk4 : (k : ℕ) ≤ 4 := by omega
  have hl4 : (l : ℕ) ≤ 4 := by omega
  have hveq : v k = v l :=
    four_class_eq (v k) (v l) (a : ℤ) (b : ℤ) c d (hmem k hk4) (hmem l hl4) hfkl
  have hnat : (x + (k : ℕ) * (N / 2)) % (4 * N) = (x + (l : ℕ) * (N / 2)) % (4 * N) := by
    have := hveq
    simp only [hv] at this
    exact_mod_cast this
  rcases Nat.lt_or_ge (k : ℕ) (l : ℕ) with hlt | hge
  · exact shifts_distinct N x hN k l hlt hl4 hnat
  · have hlt2 : (l : ℕ) < (k : ℕ) := by
      rcases Nat.lt_or_ge (l : ℕ) (k : ℕ) with h2 | h2
      · exact h2
      · exfalso
        exact hkl (Fin.ext (by omega))
    exact shifts_distinct N x hN l k hlt2 hk4 hnat.symm

/-! ## The roll procedure: C6 -/

/-- Claim C6: `mirrorfield_roll_chars` computes the two roll positions from
`(pos + perim(pos) + perim(neigh(pos))) mod 4N`, shifts each by `N / 2` modulo
`4N` exactly until it first leaves its four forbidden positions, performs the two
swaps with the start swap first exactly when `perim(start) > perim(end)`, and
records the start/end positions as the new last pair. -/
theorem roll_chars_spec (N : ℕ) (perim : List ℕ) (s e : ℕ) (lS lE : ℤ) (hN : 2 ≤ N) :
    ∃ ks ke rs re,
      rs = ((s + perim.getD s 0 + perim.getD (neigh s) 0) % (4 * N) + ks * (N / 2)) % (4 * N) ∧
      re = ((e + perim.getD e 0 + perim.getD (neigh e) 0) % (4 * N) + ke * (N / 2)) % (4 * N) ∧
      ¬(rs = s ∨ rs = e ∨ (rs : ℤ) = lS ∨ (rs : ℤ) = lE) ∧
      ¬(re = e ∨ re = s ∨ (re : ℤ) = lE ∨ (re : ℤ) = lS) ∧
      (∀ j < ks,
        (((s + perim.getD s 0 + perim.getD (neigh s) 0) % (4 * N) + j * (N / 2)) % (4 * N) = s ∨
        ((s + perim.getD s 0 + perim.getD (neigh s) 0) % (4 * N) + j * (N / 2)) % (4 * N) = e ∨
        ((((s + perim.getD s 0 + perim.getD (neigh s) 0) % (4 * N) + j * (N / 2)) % (4 * N) : ℕ) : ℤ) = lS ∨
        ((((s + perim.getD s 0 + perim.getD (neigh s) 0) % (4 * N) + j * (N / 2)) % (4 * N) : ℕ) : ℤ) = lE)) ∧
      (∀ j < ke,
        (((e + perim.getD e 0 + perim.getD (neigh e) 0) % (4 * N) + j * (N / 2)) % (4 * N) = e ∨
        ((e + perim.getD e 0 + perim.getD (neigh e) 0) % (4 * N) + j * (N / 2)) % (4 * N) = s ∨
        ((((e + perim.getD e 0 + perim.getD (neigh e) 0) % (4 * N) + j * (N / 2)) % (4 * N) : ℕ) : ℤ) = lE ∨
        ((((e + perim.getD e 0 + perim.getD (neigh e) 0) % (4 * N) + j * (N / 2)) % (4 * N) : ℕ) : ℤ) = lS)) ∧
      mirrorfield_roll_chars N perim s e lS lE =
        some (if perim.getD e 0 < perim.getD s 0 then
            swapL (swapL perim s rs) e re
          else swapL (swapL perim e re) s rs, (s : ℤ), (e : ℤ)) := by
  have h4N : 0 < 4 * N := by omega
  set rs0 := (s + perim.getD s 0 + perim.getD (neigh s) 0) % (4 * N) with hrs0
  set re0 := (e + perim.getD e 0 + perim.getD (neigh e) 0) % (4 * N) with hre0
  have hrs0lt : rs0 < 4 * N := Nat.mod_lt _ h4N
  have hre0lt : re0 < 4 * N := Nat.mod_lt _ h4N
  obtain ⟨rs, hrs⟩ := escape_total N s e lS lE hN rs0 hrs0lt
  obtain ⟨re, hre⟩ := escape_total N e s lE lS hN re0 hre0lt
  obtain ⟨ks, hks1, hks2, hks3⟩ := escape_spec N s e lS lE (escapeFuel N) rs0 rs hrs0lt hrs
  obtain ⟨ke, hke1, hke2, hke3⟩ := escape_spec N e s lE lS (escapeFuel N) re0 re hre0lt hre
  refine ⟨ks, ke, rs, re, hks1, hke1, hks2, hke2, hks3, hke3, ?_⟩
  have hneigh_s : (if s = 0 then s + 1 else s - 1) = neigh s := rfl
  have hneigh_e : (if e = 0 then e + 1 else e - 1) = neigh e := rfl
  simp only [mirrorfield_roll_chars, hneigh_s, hneigh_e, ← hrs0, ← hre0, hrs, hre]

/-- Witness for `roll_chars_spec` at a concrete perimeter. -/
theorem roll_chars_spec_witness :
    ∃ ks ke rs re,
      rs = ((0 + ([10, 20, 30, 40, 50, 60, 70, 80] : List ℕ).getD 0 0 +
        ([10, 20, 30, 40, 50, 60, 70, 80] : List ℕ).getD (neigh 0) 0) % (4 * 2) +
          ks * (2 / 2)) % (4 * 2) ∧
      re = ((3 + ([10, 20, 30, 40, 50, 60, 70, 80] : List ℕ).getD 3 0 +
        ([10, 20, 30, 40, 50, 60, 70, 80] : List ℕ).getD (neigh 3) 0) % (4 * 2) +
          ke * (2 / 2)) % (4 * 2) ∧
      ¬(rs = 0 ∨ rs = 3 ∨ (rs : ℤ) = -1 ∨ (rs : ℤ) = -1) ∧
      ¬(re = 3 ∨ re = 0 ∨ (re : ℤ) = -1 ∨ (re : ℤ) = -1) ∧
      (∀ j < ks,
        (((0 + ([10, 20, 30, 40, 50, 60, 70, 80] : List ℕ).getD 0 0 +
          ([10, 20, 30, 40, 50, 60, 70, 80] : List ℕ).getD (neigh 0) 0) % (4 * 2) +
            j * (2 / 2)) % (4 * 2) = 0 ∨
        ((0 + ([10, 20, 30, 40, 50, 60, 70, 80] : List ℕ).getD 0 0 +
          ([10, 20, 30, 40, 50, 60, 70, 80] : List ℕ).getD (neigh 0) 0) % (4 * 2) +
            j * (2 / 2)) % (4 * 2) = 3 ∨
        ((((0 + ([10, 20, 30, 40, 50, 60, 70, 80] : List ℕ).getD 0 0 +
          ([10, 20, 30, 40, 50, 60, 70, 80] : List ℕ).getD (neigh 0) 0) % (4 * 2) +
            j * (2 / 2)) % (4 * 2) : ℕ) : ℤ) = -1 ∨
        ((((0 + ([10, 20, 30, 40, 50, 60, 70, 80] : List ℕ).getD 0 0 +
          ([10, 20, 30, 40, 50, 60, 70, 80] : List ℕ).getD (neigh 0) 0) % (4 * 2) +
            j * (2 / 2)) % (4 * 2) : ℕ) : ℤ) = -1)) ∧
      (∀ j < ke,
        (((3 + ([10, 20, 30, 40, 50, 60, 70, 80] : List ℕ).getD 3 0 +
          ([10, 20, 30, 40, 50, 60, 70, 80] : List ℕ).getD (neigh 3) 0) % (4 * 2) +
            j * (2 / 2)) % (4 * 2) = 3 ∨
        ((3 + ([10, 20, 30, 40, 50, 60, 70, 80] : List ℕ).getD 3 0 +
          ([10, 20, 30, 40, 50, 60, 70, 80] : List ℕ).getD (neigh 3) 0) % (4 * 2) +
            j * (2 / 2)) % (4 * 2) = 0 ∨
        ((((3 + ([10, 20, 30, 40, 50, 60, 70, 80] : List ℕ).getD 3 0 +
          ([10, 20, 30, 40, 50, 60, 70, 80] : List ℕ).getD (neigh 3) 0) % (4 * 2) +
            j * (2 / 2)) % (4 * 2) : ℕ) : ℤ) = -1 ∨
        ((((3 + ([10, 20, 30, 40, 50, 60, 70, 80] : List ℕ).getD 3 0 +
          ([10, 20, 30, 40, 50, 60, 70, 80] : List ℕ).getD (neigh 3) 0) % (4 * 2) +
            j * (2 / 2)) % (4 * 2) : ℕ) : ℤ) = -1)) ∧
      mirrorfield_roll_chars 2 [10, 20, 30, 40, 50, 60, 70, 80] 0 3 (-1) (-1) =
        some (if ([10, 20, 30, 40, 50, 60, 70, 80] : List ℕ).getD 3 0 <
            ([10, 20, 30, 40, 50, 60, 70, 80] : List ℕ).getD 0 0 then
            swapL (swapL [10, 20, 30, 40, 50, 60, 70, 80] 0 rs) 3 re
          else swapL (swapL [10, 20, 30, 40, 50, 60, 70, 80] 3 re) 0 rs,
          ((0 : ℕ) : ℤ), ((3 : ℕ) : ℤ)) :=
  roll_chars_spec 2 [10, 20, 30, 40, 50, 60, 70, 80] 0 3 (-1) (-1) (by decide)

/-! ## Unknown input: C4 -/

/-- Claim C4 is about behaviour the source does not have: after the perimeter
scan fails, `startCharPos` equals `4 * N`, which is one past the last perimeter
index, and the source goes on to read `perimeterChars[startCharPos]` and to
traverse with an uninitialised direction instead of signalling an error.  At a
concrete key: the scan result equals `4 * N`, reading the perimeter there is out
of bounds, and the embedding (which renders the undefined behaviour as `none`)
produces no character. -/
theorem crypt_char_unknown_input_out_of_bounds :
    ([10, 20, 30, 40, 50, 60, 70, 80] : List ℕ).findIdx (fun x => x == 99) = 4 * 2 ∧
      ([10, 20, 30, 40, 50, 60, 70, 80] : List ℕ)[4 * 2]? = none ∧
      mirrorfield_crypt_char 2
        (freshState [3, 3, 3, 3] [10, 20, 30, 40, 50, 60, 70, 80]) 99 = none := by
  decide

/-! ## Geometry of entries, steps and exits -/

theorem entrySt_top {N s : ℕ} (h : s < N) : entrySt N s = ⟨0, s, .down⟩ := by
  simp [entrySt, h]

theorem entrySt_right {N s : ℕ} (h1 : N ≤ s) (h2 : s < 2 * N) :
    entrySt N s = ⟨s - N, N - 1, .left⟩ := by
  have h3 : ¬ s < N := by omega
  simp [entrySt, h3, h2]

theorem entrySt_bottom {N s : ℕ} (h1 : 2 * N ≤ s) (h2 : s < 3 * N) :
    entrySt N s = ⟨s - 2 * N, 0, .right⟩ := by
  have h3 : ¬ s < N := by omega
  have h4 : ¬ s < 2 * N := by omega
  simp [entrySt, h3, h4, h2]

theorem entrySt_left {N s : ℕ} (h1 : 3 * N ≤ s) :
    entrySt N s = ⟨N - 1, s - 3 * N, .up⟩ := by
  have h3 : ¬ s < N := by omega
  have h4 : ¬ s < 2 * N := by omega
  have h5 : ¬ s < 3 * N := by omega
  simp [entrySt, h3, h4, h5]

theorem entrySt_valid {N s : ℕ} (h : s < 4 * N) : Bvalid N (entrySt N s) := by
  have hN : 0 < N := by omega
  rcases Nat.lt_or_ge s N with h1 | h1
  · rw [entrySt_top h1]; exact ⟨hN, h1⟩
  · rcases Nat.lt_or_ge s (2 * N) with h2 | h2
    · rw [entrySt_right h1 h2]
      exact ⟨show s - N < N by omega, show N - 1 < N by omega⟩
    · rcases Nat.lt_or_ge s (3 * N) with h3 | h3
      · rw [entrySt_bottom h2 h3]
        exact ⟨show s - 2 * N < N by omega, hN⟩
      · rw [entrySt_left h3]
        exact ⟨show N - 1 < N by omega, show s - 3 * N < N by omega⟩

theorem stepOut_inl_valid {N r c : ℕ} {d : Dir} {b2 : Beam} (hr : r < N) (hc : c < N)
    (h : stepOut N r c d = .inl b2) : Bvalid N b2 := by
  cases d with
  | down =>
    simp only [stepOut] at h
    by_cases hb : r + 1 = N
    · rw [if_pos hb] at h; exact absurd h (by simp)
    · rw [if_neg hb] at h
      simp only [Sum.inl.injEq] at h
      subst h
      exact ⟨show r + 1 < N by omega, hc⟩
  | left =>
    simp only [stepOut] at h
    by_cases hb : c = 0
    · rw [if_pos hb] at h; exact absurd h (by simp)
    · rw [if_neg hb] at h
      simp only [Sum.inl.injEq] at h
      subst h
      exact ⟨hr, show c - 1 < N by omega⟩
  | right =>
    simp only [stepOut] at h
    by_cases hb : c + 1 = N
    · rw [if_pos hb] at h; exact absurd h (by simp)
    · rw [if_neg hb] at h
      simp only [Sum.inl.injEq] at h
      subst h
      exact ⟨hr, show c + 1 < N by omega⟩
  | up =>
    simp only [stepOut] at h
    by_cases hb : r = 0
    · rw [if_pos hb] at h; exact absurd h (by simp)
    · rw [if_neg hb] at h
      simp only [Sum.inl.injEq] at h
      subst h
      exact ⟨show r - 1 < N by omega, hc⟩

theorem stepOut_inl_rev {N r c : ℕ} {d : Dir} {b2 : Beam} (hr : r < N) (hc : c < N)
    (h : stepOut N r c d = .inl b2) :
    stepOut N b2.r b2.c d.rev = .inl ⟨r, c, d.rev⟩ ∧ b2.d = d := by
  cases d with
  | down =>
    simp only [stepOut] at h
    by_cases hb : r + 1 = N
    · rw [if_pos hb] at h; exact absurd h (by simp)
    · rw [if_neg hb] at h
      simp only [Sum.inl.injEq] at h
      subst h
      refine ⟨?_, rfl⟩
      simp only [Dir.rev, stepOut]
      rw [if_neg (by omega)]
      have he : r + 1 - 1 = r := by omega
      rw [he]
  | left =>
    simp only [stepOut] at h
    by_cases hb : c = 0
    · rw [if_pos hb] at h; exact absurd h (by simp)
    · rw [if_neg hb] at h
      simp only [Sum.inl.injEq] at h
      subst h
      refine ⟨?_, rfl⟩
      simp only [Dir.rev, stepOut]
      rw [if_neg (by omega)]
      have he : c - 1 + 1 = c := by omega
      rw [he]
  | right =>
    simp only [stepOut] at h
    by_cases hb : c + 1 = N
    · rw [if_pos hb] at h; exact absurd h (by simp)
    · rw [if_neg hb] at h
      simp only [Sum.inl.injEq] at h
      subst h
      refine ⟨?_, rfl⟩
      simp only [Dir.rev, stepOut]
      rw [if_neg (by omega)]
      have he : c + 1 - 1 = c := by omega
      rw [he]
  | up =>
    simp only [stepOut] at h
    by_cases hb : r = 0
    · rw [if_pos hb] at h; exact absurd h (by simp)
    · rw [if_neg hb] at h
      simp only [Sum.inl.injEq] at h
      subst h
      refine ⟨?_, rfl⟩
      simp only [Dir.rev, stepOut]
      rw [if_neg (by omega)]
      have he : r - 1 + 1 = r := by omega
      rw [he]

theorem stepOut_inr_entry {N r c : ℕ} {d : Dir} {e : ℕ} (hr : r < N) (hc : c < N)
    (h : stepOut N r c d = .inr e) :
    e < 4 * N ∧ entrySt N e = ⟨r, c, d.rev⟩ := by
  cases d with
  | down =>
    simp only [stepOut] at h
    by_cases hb : r + 1 = N
    · rw [if_pos hb] at h
      simp only [Sum.inr.injEq] at h
      subst h
      refine ⟨by omega, ?_⟩
      rw [entrySt_left (by omega)]
      rw [show N - 1 = r by omega, show c + 3 * N - 3 * N = c by omega]
      rfl
    · rw [if_neg hb] at h; exact absurd h (by simp)
  | left =>
    simp only [stepOut] at h
    by_cases hb : c = 0
    · rw [if_pos hb] at h
      simp only [Sum.inr.injEq] at h
      subst h
      refine ⟨by omega, ?_⟩
      rw [entrySt_bottom (by omega) (by omega)]
      rw [show r + 2 * N - 2 * N = r by omega, hb]
      rfl
    · rw [if_neg hb] at h; exact absurd h (by simp)
  | right =>
    simp only [stepOut] at h
    by_cases hb : c + 1 = N
    · rw [if_pos hb] at h
      simp only [Sum.inr.injEq] at h
      subst h
      refine ⟨by omega, ?_⟩
      rw [entrySt_right (by omega) (by omega)]
      rw [show r + N - N = r by omega, show N - 1 = c by omega]
      rfl
    · rw [if_neg hb] at h; exact absurd h (by simp)
  | up =>
    simp only [stepOut] at h
    by_cases hb : r = 0
    · rw [if_pos hb] at h
      simp only [Sum.inr.injEq] at h
      subst h
      refine ⟨by omega, ?_⟩
      rw [entrySt_top (by omega)]
      rw [hb]
      rfl
    · rw [if_neg hb] at h; exact absurd h (by simp)

theorem stepOut_entry_rev_exit {N s : ℕ} (hs : s < 4 * N) :
    stepOut N (entrySt N s).r (entrySt N s).c (entrySt N s).d.rev = .inr s := by
  rcases Nat.lt_or_ge s N with h1 | h1
  · rw [entrySt_top h1]
    show stepOut N 0 s Dir.up = .inr s
    simp [stepOut]
  · rcases Nat.lt_or_ge s (2 * N) with h2 | h2
    · rw [entrySt_right h1 h2]
      show stepOut N (s - N) (N - 1) Dir.right = .inr s
      simp only [stepOut]
      rw [if_pos (show N - 1 + 1 = N by omega)]
      rw [Nat.sub_add_cancel h1]
    · rcases Nat.lt_or_ge s (3 * N) with h3 | h3
      · rw [entrySt_bottom h2 h3]
        show stepOut N (s - 2 * N) 0 Dir.left = .inr s
        simp [stepOut, Nat.sub_add_cancel h2]
      · rw [entrySt_left h3]
        show stepOut N (N - 1) (s - 3 * N) Dir.down = .inr s
        simp only [stepOut]
        rw [if_pos (show N - 1 + 1 = N by omega)]
        rw [Nat.sub_add_cancel h3]

theorem stepOut_inl_shape {N r c : ℕ} {d : Dir} {b2 : Beam} (hr : r < N) (hc : c < N)
    (h : stepOut N r c d = .inl b2) :
    b2.d = d ∧ (d = .down → 0 < b2.r) ∧ (d = .left → b2.c + 1 < N) ∧
      (d = .right → 0 < b2.c) ∧ (d = .up → b2.r + 1 < N) := by
  cases d with
  | down =>
    simp only [stepOut] at h
    by_cases hb : r + 1 = N
    · rw [if_pos hb] at h; exact absurd h (by simp)
    · rw [if_neg hb] at h
      simp only [Sum.inl.injEq] at h
      subst h
      refine ⟨rfl, fun _ => ?_, fun hh => absurd hh (by decide),
        fun hh => absurd hh (by decide), fun hh => absurd hh (by decide)⟩
      show 0 < r + 1
      omega
  | left =>
    simp only [stepOut] at h
    by_cases hb : c = 0
    · rw [if_pos hb] at h; exact absurd h (by simp)
    · rw [if_neg hb] at h
      simp only [Sum.inl.injEq] at h
      subst h
      refine ⟨rfl, fun hh => absurd hh (by decide), fun _ => ?_,
        fun hh => absurd hh (by decide), fun hh => absurd hh (by decide)⟩
      show c - 1 + 1 < N
      omega
  | right =>
    simp only [stepOut] at h
    by_cases hb : c + 1 = N
    · rw [if_pos hb] at h; exact absurd h (by simp)
    · rw [if_neg hb] at h
      simp only [Sum.inl.injEq] at h
      subst h
      refine ⟨rfl, fun hh => absurd hh (by decide), fun hh => absurd hh (by decide),
        fun _ => ?_, fun hh => absurd hh (by decide)⟩
      show 0 < c + 1
      omega
  | up =>
    simp only [stepOut] at h
    by_cases hb : r = 0
    · rw [if_pos hb] at h; exact absurd h (by simp)
    · rw [if_neg hb] at h
      simp only [Sum.inl.injEq] at h
      subst h
      refine ⟨rfl, fun hh => absurd hh (by decide), fun hh => absurd hh (by decide),
        fun hh => absurd hh (by decide), fun _ => ?_⟩
      show r - 1 + 1 < N
      omega

/-! ## Static step lemmas -/

theorem sstep_inl_valid {N : ℕ} {g : List ℤ} {b b2 : Beam} (hb : Bvalid N b)
    (h : sstep N g b = .inl b2) : Bvalid N b2 :=
  stepOut_inl_valid hb.1 hb.2 h

theorem sstep_inr_lt {N : ℕ} {g : List ℤ} {b : Beam} {e : ℕ} (hb : Bvalid N b)
    (h : sstep N g b = .inr e) : e < 4 * N :=
  (stepOut_inr_entry hb.1 hb.2 h).1

theorem sstep_rev {N : ℕ} {g : List ℤ} {b b2 : Beam} (hb : Bvalid N b)
    (h : sstep N g b = .inl b2) : sstep N g (revS N g b2) = .inl (revS N g b) := by
  obtain ⟨hstep, hd⟩ := stepOut_inl_rev hb.1 hb.2 h
  show stepOut N (revS N g b2).r (revS N g b2).c
    (reflect (g.getD (cellIdx N (revS N g b2)) 0) (revS N g b2).d) = .inl (revS N g b)
  have hrc : (revS N g b2).r = b2.r ∧ (revS N g b2).c = b2.c := ⟨rfl, rfl⟩
  rw [hrc.1, hrc.2]
  have hcell : cellIdx N (revS N g b2) = cellIdx N b2 := rfl
  rw [hcell]
  have hd2 : (revS N g b2).d = (reflect (g.getD (cellIdx N b2) 0) b2.d).rev := rfl
  rw [hd2, reflect_rev, hd]
  exact hstep

theorem sstep_exit_rev {N : ℕ} {g : List ℤ} {b : Beam} {e : ℕ} (hb : Bvalid N b)
    (h : sstep N g b = .inr e) : entrySt N e = revS N g b := by
  have := (stepOut_inr_entry hb.1 hb.2 h).2
  rw [this]
  rfl

theorem sstep_entry_exit {N : ℕ} (g : List ℤ) {s : ℕ} (hs : s < 4 * N) :
    sstep N g (revS N g (entrySt N s)) = .inr s := by
  show stepOut N (revS N g (entrySt N s)).r (revS N g (entrySt N s)).c
    (reflect (g.getD (cellIdx N (revS N g (entrySt N s))) 0) (revS N g (entrySt N s)).d) = .inr s
  have hcell : cellIdx N (revS N g (entrySt N s)) = cellIdx N (entrySt N s) := rfl
  have hd : (revS N g (entrySt N s)).d =
      (reflect (g.getD (cellIdx N (entrySt N s)) 0) (entrySt N s).d).rev := rfl
  rw [hcell, hd, reflect_rev]
  exact stepOut_entry_rev_exit hs

theorem sstep_no_pred {N : ℕ} {g : List ℤ} {b : Beam} {s : ℕ} (hb : Bvalid N b)
    (hs : s < 4 * N) : sstep N g b ≠ .inl (entrySt N s) := by
  intro h
  obtain ⟨hd, hdown, hleft, hright, hup⟩ := stepOut_inl_shape hb.1 hb.2 h
  rcases Nat.lt_or_ge s N with h1 | h1
  · have heq := entrySt_top (N := N) h1
    have hd2 : reflect (g.getD (cellIdx N b) 0) b.d = Dir.down := by
      rw [heq] at hd; exact hd.symm
    have h0 := hdown hd2
    rw [heq] at h0
    have h0a : (0 : ℕ) < 0 := h0
    omega
  · rcases Nat.lt_or_ge s (2 * N) with h2 | h2
    · have heq := entrySt_right (N := N) h1 h2
      have hd2 : reflect (g.getD (cellIdx N b) 0) b.d = Dir.left := by
        rw [heq] at hd; exact hd.symm
      have h0 := hleft hd2
      rw [heq] at h0
      have h0a : N - 1 + 1 < N := h0
      omega
    · rcases Nat.lt_or_ge s (3 * N) with h3 | h3
      · have heq := entrySt_bottom (N := N) h2 h3
        have hd2 : reflect (g.getD (cellIdx N b) 0) b.d = Dir.right := by
          rw [heq] at hd; exact hd.symm
        have h0 := hright hd2
        rw [heq] at h0
        have h0a : (0 : ℕ) < 0 := h0
        omega
      · have heq := entrySt_left (N := N) h3
        have hd2 : reflect (g.getD (cellIdx N b) 0) b.d = Dir.up := by
          rw [heq] at hd; exact hd.symm
        have h0 := hup hd2
        rw [heq] at h0
        have h0a : N - 1 + 1 < N := h0
        omega

theorem sstep_inl_inj {N : ℕ} {g : List ℤ} {b1 b2 b : Beam} (h1v : Bvalid N b1)
    (h2v : Bvalid N b2) (h1 : sstep N g b1 = .inl b) (h2 : sstep N g b2 = .inl b) :
    b1 = b2 := by
  have e1 := sstep_rev h1v h1
  have e2 := sstep_rev h2v h2
  rw [e1] at e2
  have : revS N g b1 = revS N g b2 := by
    simpa using e2
  have h3 := congrArg (revS N g) this
  rwa [revS_revS, revS_revS] at h3

/-! ## Chains of static steps -/

theorem Chain.snoc {N : ℕ} {g : List ℤ} {b bend b2 : Beam} {L : List Beam}
    (hc : Chain N g b L bend) (h : sstep N g bend = .inl b2) :
    Chain N g b (L ++ [b2]) b2 := by
  induction hc with
  | single b0 => exact Chain.cons h (Chain.single b2)
  | cons hstep hc2 ih => exact Chain.cons hstep (ih h)

theorem Chain.valid {N : ℕ} {g : List ℤ} {b bend : Beam} {L : List Beam}
    (hc : Chain N g b L bend) :
    Bvalid N b → (∀ x ∈ L, Bvalid N x) ∧ Bvalid N bend := by
  induction hc with
  | single b0 =>
    intro hb
    refine ⟨?_, hb⟩
    intro x hx
    simp only [List.mem_singleton] at hx
    subst hx
    exact hb
  | cons hstep hc2 ih =>
    intro hb
    have hb1 := sstep_inl_valid hb hstep
    obtain ⟨hL, hend⟩ := ih hb1
    refine ⟨?_, hend⟩
    intro x hx
    rcases List.mem_cons.mp hx with h1 | h1
    · subst h1; exact hb
    · exact hL x h1

theorem Chain.rev {N : ℕ} {g : List ℤ} {b bend : Beam} {L : List Beam}
    (hc : Chain N g b L bend) :
    (∀ x ∈ L, Bvalid N x) →
    Chain N g (revS N g bend) (L.reverse.map (revS N g)) (revS N g b) := by
  induction hc with
  | single b0 =>
    intro _
    exact Chain.single (revS N g b0)
  | @cons b0 b1 bend2 L2 hstep hc2 ih =>
    intro hv
    have hvb : Bvalid N b0 := hv b0 (List.mem_cons_self b0 L2)
    have ihc := ih (fun x hx => hv x (List.mem_cons_of_mem b0 hx))
    have hstep2 := sstep_rev hvb hstep
    have hsn := Chain.snoc ihc hstep2
    simpa using hsn

theorem sTrav_of_chain {N : ℕ} {g : List ℤ} {b bend : Beam} {L : List Beam} {e : ℕ}
    (hc : Chain N g b L bend) (hexit : sstep N g bend = .inr e) :
    ∀ n, L.length ≤ n → sTrav N g n b = some (e, L.map (cellIdx N)) := by
  induction hc with
  | single b0 =>
    intro n hn
    have hn1 : 1 ≤ n := by simpa using hn
    obtain ⟨m, rfl⟩ : ∃ m, n = m + 1 := ⟨n - 1, by omega⟩
    simp only [sTrav, hexit, List.map_cons, List.map_nil]
  | cons hstep hc2 ih =>
    intro n hn
    simp only [List.length_cons] at hn
    obtain ⟨m, rfl⟩ : ∃ m, n = m + 1 := ⟨n - 1, by omega⟩
    have hrec := ih hexit m (by omega)
    simp only [sTrav, hstep, hrec, List.map_cons]

theorem chain_of_sTrav {N : ℕ} {g : List ℤ} :
    ∀ (n : ℕ) (b : Beam) (e : ℕ) (cells : List ℕ),
      sTrav N g n b = some (e, cells) →
      ∃ L bend, Chain N g b L bend ∧ sstep N g bend = .inr e ∧
        cells = L.map (cellIdx N) ∧ L.length ≤ n := by
  intro n
  induction n with
  | zero => intro b e cells h; exact absurd h (by simp [sTrav])
  | succ m ih =>
    intro b e cells h
    simp only [sTrav] at h
    cases hstep : sstep N g b with
    | inr e2 =>
      rw [hstep] at h
      simp only [Option.some.injEq, Prod.mk.injEq] at h
      obtain ⟨he, hcells⟩ := h
      subst he
      subst hcells
      exact ⟨[b], b, Chain.single b, hstep, by simp, by simp⟩
    | inl b1 =>
      rw [hstep] at h
      simp only at h
      cases hrec : sTrav N g m b1 with
      | none => rw [hrec] at h; exact absurd h (by simp)
      | some pr =>
        obtain ⟨e2, cells2⟩ := pr
        rw [hrec] at h
        simp only [Option.some.injEq, Prod.mk.injEq] at h
        obtain ⟨he, hcells⟩ := h
        obtain ⟨L, bend, hcc, hexit, hcl, hlen⟩ := ih b1 e2 cells2 hrec
        rw [he] at hexit
        refine ⟨b :: L, bend, Chain.cons hstep hcc, hexit, ?_, by simp; omega⟩
        rw [← hcells, hcl, List.map_cons]

/-- Reversal of the static traversal: if the ray entered at `s` exits at `e`, the
ray entered at `e` exits at `s`, passing through the same cells in reverse
order. -/
theorem sTrav_reverse {N : ℕ} {g : List ℤ} {n s e : ℕ} {cells : List ℕ}
    (hs : s < 4 * N) (h : sTrav N g n (entrySt N s) = some (e, cells)) :
    e < 4 * N ∧ sTrav N g n (entrySt N e) = some (s, cells.reverse) := by
  obtain ⟨L, bend, hc, hexit, hcl, hlen⟩ := chain_of_sTrav n (entrySt N s) e cells h
  have hev := entrySt_valid hs
  obtain ⟨hLv, hbend⟩ := Chain.valid hc hev
  have he4 : e < 4 * N := sstep_inr_lt hbend hexit
  refine ⟨he4, ?_⟩
  have hrev := Chain.rev hc hLv
  have hentry : entrySt N e = revS N g bend := sstep_exit_rev hbend hexit
  rw [← hentry] at hrev
  have hfinal : sstep N g (revS N g (entrySt N s)) = .inr s := sstep_entry_exit g hs
  have hmain := sTrav_of_chain hrev hfinal n (by simpa using hlen)
  have hmaps : (L.reverse.map (revS N g)).map (cellIdx N) = (L.map (cellIdx N)).reverse := by
    rw [List.map_map]
    have hcongr : L.reverse.map (cellIdx N ∘ revS N g) = L.reverse.map (cellIdx N) :=
      List.map_congr_left (fun x _ => rfl)
    rw [hcongr, List.map_reverse]
  rw [hmain, hmaps, hcl]

/-! ## Termination of the static traversal -/

theorem sTrav_none_run {N : ℕ} {g : List ℤ} :
    ∀ (n : ℕ) (b : Beam), sTrav N g n b = none →
      ∃ f : ℕ → Beam, f 0 = b ∧ ∀ i < n, sstep N g (f i) = .inl (f (i + 1)) := by
  intro n
  induction n with
  | zero => intro b _; exact ⟨fun _ => b, rfl, by omega⟩
  | succ m ih =>
    intro b h
    simp only [sTrav] at h
    cases hstep : sstep N g b with
    | inr e => rw [hstep] at h; simp at h
    | inl b1 =>
      rw [hstep] at h
      simp only at h
      cases hrec : sTrav N g m b1 with
      | some pr =>
        obtain ⟨e2, cells2⟩ := pr
        rw [hrec] at h
        simp at h
      | none =>
        obtain ⟨f1, hf0, hf⟩ := ih b1 hrec
        refine ⟨fun i => match i with | 0 => b | i + 1 => f1 i, rfl, ?_⟩
        intro i hi
        cases i with
        | zero =>
          show sstep N g b = .inl (f1 0)
          rw [hf0]
          exact hstep
        | succ j => exact hf j (by omega)

theorem run_valid {N : ℕ} {g : List ℤ} {f : ℕ → Beam} {n : ℕ}
    (h0 : Bvalid N (f 0)) (hf : ∀ i < n, sstep N g (f i) = .inl (f (i + 1))) :
    ∀ i, i ≤ n → Bvalid N (f i) := by
  intro i
  induction i with
  | zero => intro _; exact h0
  | succ j ih =>
    intro hj
    exact sstep_inl_valid (ih (by omega)) (hf j (by omega))

theorem run_distinct {N : ℕ} {g : List ℤ} {f : ℕ → Beam} {n s : ℕ}
    (hs : s < 4 * N) (h0 : f 0 = entrySt N s)
    (hf : ∀ i < n, sstep N g (f i) = .inl (f (i + 1))) :
    ∀ i j, i ≤ n → j ≤ n → i < j → f i ≠ f j := by
  have hvalid : ∀ i, i ≤ n → Bvalid N (f i) :=
    run_valid (h0 ▸ entrySt_valid hs) hf
  intro i
  induction i with
  | zero =>
    intro j _ hj hij heq
    have hstep := hf (j - 1) (by omega)
    rw [show j - 1 + 1 = j by omega] at hstep
    rw [← heq, h0] at hstep
    exact sstep_no_pred (hvalid (j - 1) (by omega)) hs hstep
  | succ i2 ih =>
    intro j hi hj hij heq
    have hstep1 := hf i2 (by omega)
    have hstep2 := hf (j - 1) (by omega)
    rw [show j - 1 + 1 = j by omega] at hstep2
    rw [← heq] at hstep2
    have heq2 : f i2 = f (j - 1) :=
      sstep_inl_inj (hvalid i2 (by omega)) (hvalid (j - 1) (by omega)) hstep1 hstep2
    exact ih (j - 1) (by omega) (by omega) (by omega) heq2

theorem dirCode_lt (d : Dir) : dirCode d < 4 := by
  cases d <;> simp [dirCode]

theorem dirCode_inj {d1 d2 : Dir} (h : dirCode d1 = dirCode d2) : d1 = d2 := by
  cases d1 <;> cases d2 <;> simp_all [dirCode]

theorem encodeBeam_lt {N : ℕ} {b : Beam} (hb : Bvalid N b) :
    encodeBeam N b < 4 * (N * N) := by
  obtain ⟨hr, hc⟩ := hb
  have h1 : b.r * N + N ≤ N * N := by
    have h2 : (b.r + 1) * N ≤ N * N := Nat.mul_le_mul_right N hr
    rw [Nat.succ_mul] at h2
    exact h2
  have h3 : b.r * N + b.c < N * N := by omega
  have h4 := dirCode_lt b.d
  simp only [encodeBeam]
  omega

theorem encodeBeam_inj {N : ℕ} {b1 b2 : Beam} (h1 : Bvalid N b1) (h2 : Bvalid N b2)
    (h : encodeBeam N b1 = encodeBeam N b2) : b1 = b2 := by
  cases b1 with
  | mk r1 c1 d1 =>
    cases b2 with
    | mk r2 c2 d2 =>
      have hr1 : r1 < N := h1.1
      have hc1 : c1 < N := h1.2
      have hr2 : r2 < N := h2.1
      have hc2 : c2 < N := h2.2
      simp only [encodeBeam] at h
      have hd1 := dirCode_lt d1
      have hd2 := dirCode_lt d2
      have ht : r1 * N + c1 = r2 * N + c2 ∧ dirCode d1 = dirCode d2 := by
        constructor <;> omega
      have hrr : r1 = r2 := by
        rcases Nat.lt_trichotomy r1 r2 with hx | hx | hx
        · exfalso
          have hmul : (r1 + 1) * N ≤ r2 * N := Nat.mul_le_mul_right N hx
          rw [Nat.succ_mul] at hmul
          omega
        · exact hx
        · exfalso
          have hmul : (r2 + 1) * N ≤ r1 * N := Nat.mul_le_mul_right N hx
          rw [Nat.succ_mul] at hmul
          omega
      subst hrr
      have hcc : c1 = c2 := by omega
      subst hcc
      have hdd : d1 = d2 := dirCode_inj ht.2
      rw [hdd]

/-- Every entry beam of a validated position exits within `4 * N * N` static
steps: the step map is injective, the entry beam has no predecessor, and there
are only `4 * N * N` beam states. -/
theorem sTrav_total {N : ℕ} (g : List ℤ) {s : ℕ} (hs : s < 4 * N) :
    ∃ out, sTrav N g (4 * N * N) (entrySt N s) = some out := by
  cases hst : sTrav N g (4 * N * N) (entrySt N s) with
  | some out => exact ⟨out, rfl⟩
  | none =>
    exfalso
    obtain ⟨f, hf0, hf⟩ := sTrav_none_run (4 * N * N) (entrySt N s) hst
    have hdist := run_distinct hs hf0 hf
    have hvalid : ∀ i, i ≤ 4 * N * N → Bvalid N (f i) :=
      run_valid (hf0 ▸ entrySt_valid hs) hf
    have hmap : ∀ i : Fin (4 * N * N + 1), encodeBeam N (f i) < 4 * N * N := by
      intro i
      have hv := encodeBeam_lt (hvalid i (Nat.le_of_lt_succ i.isLt))
      rw [← Nat.mul_assoc] at hv
      exact hv
    obtain ⟨i, j, hij, hfij⟩ := Fintype.exists_ne_map_eq_of_card_lt
      (fun i : Fin (4 * N * N + 1) => (⟨encodeBeam N (f i), hmap i⟩ : Fin (4 * N * N)))
      (by simp)
    simp only [Fin.mk.injEq] at hfij
    have hbeq : f i = f j :=
      encodeBeam_inj (hvalid i (Nat.le_of_lt_succ i.isLt))
        (hvalid j (Nat.le_of_lt_succ j.isLt)) hfij
    have hi4 := i.isLt
    have hj4 := j.isLt
    rcases Nat.lt_or_ge (i : ℕ) (j : ℕ) with hlt | hge
    · exact hdist i j (by omega) (by omega) hlt hbeq
    · have hlt2 : (j : ℕ) < (i : ℕ) := by
        rcases Nat.lt_or_ge (j : ℕ) (i : ℕ) with hx | hx
        · exact hx
        · exact absurd (Fin.ext (by omega)) hij
      exact hdist j i (by omega) (by omega) hlt2 hbeq.symm

/-! ## The mutating traversal follows the static dynamics -/

theorem cellIdx_lt {N : ℕ} {b : Beam} (hb : Bvalid N b) : cellIdx N b < N * N := by
  obtain ⟨hr, hc⟩ := hb
  have h2 : (b.r + 1) * N ≤ N * N := Nat.mul_le_mul_right N hr
  rw [Nat.succ_mul] at h2
  simp only [cellIdx]
  omega

theorem getD_mem_bounds {g0 : List ℤ} (hgv : ∀ v ∈ g0, 0 ≤ v ∧ v ≤ 3) {t : ℕ}
    (ht : t < g0.length) : 0 ≤ g0.getD t 0 ∧ g0.getD t 0 ≤ 3 := by
  rw [getD_eq_getElem _ _ _ ht]
  exact hgv _ (List.getElem_mem ht)

theorem spinVal_mem_congr {g0 : List ℤ} {C1 C2 : List ℕ} {u : ℕ}
    (h : u ∈ C1 ↔ u ∈ C2) : spinVal g0 C1 u = spinVal g0 C2 u := by
  simp only [spinVal]
  by_cases h1 : u ∈ C1 ∧ g0.getD u 0 ≠ 3
  · rw [if_pos h1, if_pos ⟨h.mp h1.1, h1.2⟩]
  · rw [if_neg h1, if_neg (fun h2 => h1 ⟨h.mpr h2.1, h2.2⟩)]

/-- The loop body of `mirrorfield_crypt_char` reflects every visit with the
cell's pre-character code: an already visited mirror is un-spun back before
reflecting, so `traverse` computes the `sTrav` exit, and the final grid spins
each mirror on the path exactly once. -/
theorem traverse_eq_static {N : ℕ} {g0 : List ℤ}
    (hgl : g0.length = N * N) (hgv : ∀ v ∈ g0, 0 ≤ v ∧ v ≤ 3) :
    ∀ (fuel : ℕ) (C : List ℕ) (grid : List ℤ) (visited : List Bool) (b : Beam),
      Bvalid N b → grid.length = N * N → visited.length = N * N →
      (∀ u, u < N * N → grid.getD u 0 = spinVal g0 C u) →
      (∀ u, u < N * N → (visited.getD u false = true ↔ (u ∈ C ∧ g0.getD u 0 ≠ 3))) →
      ((sTrav N g0 fuel b = none ∧ traverse N fuel grid visited b = none) ∨
        (∃ e cells gf, sTrav N g0 fuel b = some (e, cells) ∧
          traverse N fuel grid visited b = some (e, gf) ∧ gf.length = N * N ∧
          (∀ u, u < N * N → gf.getD u 0 = spinVal g0 (C ++ cells) u))) := by
  intro fuel
  induction fuel with
  | zero =>
    intro C grid visited b _ _ _ _ _
    exact Or.inl ⟨rfl, rfl⟩
  | succ m ih =>
    intro C grid visited b hb hglen hvlen hgrid hvis
    have ht : b.r * N + b.c < N * N := cellIdx_lt hb
    have htg : b.r * N + b.c < grid.length := by omega
    have htv : b.r * N + b.c < visited.length := by omega
    have htg0 : b.r * N + b.c < g0.length := by omega
    obtain ⟨hg0lo, hg0hi⟩ := getD_mem_bounds hgv htg0
    have hgt := hgrid (b.r * N + b.c) ht
    have hvt := hvis (b.r * N + b.c) ht
    simp only [sTrav, sstep, cellIdx, traverse]
    cases hvist : visited.getD (b.r * N + b.c) false with
    | true =>
      rw [if_pos (show (true = true) from rfl)]
      obtain ⟨hmemC, hg3⟩ := hvt.mp hvist
      have hsp : spinVal g0 C (b.r * N + b.c) = (g0.getD (b.r * N + b.c) 0 + 1) % 3 := by
        simp only [spinVal]
        rw [if_pos ⟨hmemC, hg3⟩]
      have hgt2 : grid.getD (b.r * N + b.c) 0 = (g0.getD (b.r * N + b.c) 0 + 1) % 3 := by
        rw [hgt, hsp]
      have hgrid1 : grid.set (b.r * N + b.c) ((grid.getD (b.r * N + b.c) 0 + 2) % 3) =
          grid.set (b.r * N + b.c) (g0.getD (b.r * N + b.c) 0) := by
        rw [hgt2]
        congr 1
        omega
      rw [hgrid1]
      have hset : (grid.set (b.r * N + b.c) (g0.getD (b.r * N + b.c) 0)).getD
          (b.r * N + b.c) 0 = g0.getD (b.r * N + b.c) 0 :=
        getD_set_self _ _ _ _ (by simpa using htg)
      rw [hset, if_pos hg3, if_pos hg3]
      have hinv1 : ∀ u, u < N * N →
          ((grid.set (b.r * N + b.c) (g0.getD (b.r * N + b.c) 0)).set (b.r * N + b.c)
            ((g0.getD (b.r * N + b.c) 0 + 1) % 3)).getD u 0 =
          spinVal g0 ((b.r * N + b.c) :: C) u := by
        intro u hu
        by_cases hut : u = b.r * N + b.c
        · subst hut
          rw [getD_set_self _ _ _ _ (by simpa using htg)]
          simp only [spinVal]
          rw [if_pos ⟨List.mem_cons_self _ C, hg3⟩]
        · rw [getD_set_ne _ _ _ _ _ (fun hx => hut hx.symm),
            getD_set_ne _ _ _ _ _ (fun hx => hut hx.symm), hgrid u hu]
          exact spinVal_mem_congr (by simp [hut])
      have hinv2 : ∀ u, u < N * N →
          ((visited.set (b.r * N + b.c) true).getD u false = true ↔
            (u ∈ (b.r * N + b.c) :: C ∧ g0.getD u 0 ≠ 3)) := by
        intro u hu
        by_cases hut : u = b.r * N + b.c
        · subst hut
          rw [getD_set_self _ _ _ _ (by simpa using htv)]
          simp only [true_iff]
          exact ⟨List.mem_cons_self _ C, hg3⟩
        · rw [getD_set_ne _ _ _ _ _ (fun hx => hut hx.symm)]
          rw [hvis u hu]
          constructor
          · rintro ⟨h1, h2⟩; exact ⟨List.mem_cons_of_mem _ h1, h2⟩
          · rintro ⟨h1, h2⟩
            rcases List.mem_cons.mp h1 with h3 | h3
            · exact absurd h3 hut
            · exact ⟨h3, h2⟩
      cases hstep : stepOut N b.r b.c (reflect (g0.getD (b.r * N + b.c) 0) b.d) with
      | inr e =>
        refine Or.inr ⟨e, [b.r * N + b.c], _, rfl, rfl, by simp; omega, ?_⟩
        intro u hu
        rw [hinv1 u hu]
        exact spinVal_mem_congr (by simp [Or.comm])
      | inl b2 =>
        have hb2 : Bvalid N b2 := stepOut_inl_valid hb.1 hb.2 hstep
        have hrec := ih ((b.r * N + b.c) :: C)
          ((grid.set (b.r * N + b.c) (g0.getD (b.r * N + b.c) 0)).set (b.r * N + b.c)
            ((g0.getD (b.r * N + b.c) 0 + 1) % 3))
          (visited.set (b.r * N + b.c) true) b2 hb2 (by simp [hglen]) (by simp [hvlen])
          hinv1 hinv2
        rcases hrec with ⟨hn1, hn2⟩ | ⟨e, cells, gf, hs1, hs2, hs3, hs4⟩
        · simp only [hn1, hn2]
          exact Or.inl ⟨trivial, trivial⟩
        · simp only [hs1, hs2]
          refine Or.inr ⟨e, (b.r * N + b.c) :: cells, gf, rfl, rfl, hs3, ?_⟩
          intro u hu
          rw [hs4 u hu]
          exact spinVal_mem_congr (by simp; tauto)
    | false =>
      rw [if_neg (show ¬(false = true) by simp)]
      have hnmem : ¬(b.r * N + b.c ∈ C ∧ g0.getD (b.r * N + b.c) 0 ≠ 3) := by
        intro hx
        have := hvt.mpr hx
        rw [hvist] at this
        exact absurd this (by simp)
      have hgt3 : grid.getD (b.r * N + b.c) 0 = g0.getD (b.r * N + b.c) 0 := by
        rw [hgt]
        simp only [spinVal]
        rw [if_neg hnmem]
      rw [hgt3]
      by_cases hg3 : g0.getD (b.r * N + b.c) 0 ≠ 3
      · rw [if_pos hg3, if_pos hg3]
        have hinv1 : ∀ u, u < N * N →
            (grid.set (b.r * N + b.c) ((g0.getD (b.r * N + b.c) 0 + 1) % 3)).getD u 0 =
            spinVal g0 ((b.r * N + b.c) :: C) u := by
          intro u hu
          by_cases hut : u = b.r * N + b.c
          · subst hut
            rw [getD_set_self _ _ _ _ htg]
            simp only [spinVal]
            rw [if_pos ⟨List.mem_cons_self _ C, hg3⟩]
          · rw [getD_set_ne _ _ _ _ _ (fun hx => hut hx.symm), hgrid u hu]
            exact spinVal_mem_congr (by simp [hut])
        have hinv2 : ∀ u, u < N * N →
            ((visited.set (b.r * N + b.c) true).getD u false = true ↔
              (u ∈ (b.r * N + b.c) :: C ∧ g0.getD u 0 ≠ 3)) := by
          intro u hu
          by_cases hut : u = b.r * N + b.c
          · subst hut
            rw [getD_set_self _ _ _ _ htv]
            simp only [true_iff]
            exact ⟨List.mem_cons_self _ C, hg3⟩
          · rw [getD_set_ne _ _ _ _ _ (fun hx => hut hx.symm)]
            rw [hvis u hu]
            constructor
            · rintro ⟨h1, h2⟩; exact ⟨List.mem_cons_of_mem _ h1, h2⟩
            · rintro ⟨h1, h2⟩
              rcases List.mem_cons.mp h1 with h3 | h3
              · exact absurd h3 hut
              · exact ⟨h3, h2⟩
        cases hstep : stepOut N b.r b.c (reflect (g0.getD (b.r * N + b.c) 0) b.d) with
        | inr e =>
          refine Or.inr ⟨e, [b.r * N + b.c], _, rfl, rfl, by simp; omega, ?_⟩
          intro u hu
          rw [hinv1 u hu]
          exact spinVal_mem_congr (by simp [Or.comm])
        | inl b2 =>
          have hb2 : Bvalid N b2 := stepOut_inl_valid hb.1 hb.2 hstep
          have hrec := ih ((b.r * N + b.c) :: C)
            (grid.set (b.r * N + b.c) ((g0.getD (b.r * N + b.c) 0 + 1) % 3))
            (visited.set (b.r * N + b.c) true) b2 hb2 (by simp [hglen]) (by simp [hvlen])
            hinv1 hinv2
          rcases hrec with ⟨hn1, hn2⟩ | ⟨e, cells, gf, hs1, hs2, hs3, hs4⟩
          · simp only [hn1, hn2]
            exact Or.inl ⟨trivial, trivial⟩
          · simp only [hs1, hs2]
            refine Or.inr ⟨e, (b.r * N + b.c) :: cells, gf, rfl, rfl, hs3, ?_⟩
            intro u hu
            rw [hs4 u hu]
            exact spinVal_mem_congr (by simp; tauto)
      · rw [if_neg hg3, if_neg hg3]
        have hg3v : g0.getD (b.r * N + b.c) 0 = 3 := by omega
        have hinv1 : ∀ u, u < N * N →
            grid.getD u 0 = spinVal g0 ((b.r * N + b.c) :: C) u := by
          intro u hu
          by_cases hut : u = b.r * N + b.c
          · subst hut
            rw [hgt3]
            simp only [spinVal]
            rw [if_neg (fun hx => hx.2 hg3v)]
          · rw [hgrid u hu]
            exact spinVal_mem_congr (by simp [hut])
        have hinv2 : ∀ u, u < N * N →
            (visited.getD u false = true ↔
              (u ∈ (b.r * N + b.c) :: C ∧ g0.getD u 0 ≠ 3)) := by
          intro u hu
          by_cases hut : u = b.r * N + b.c
          · subst hut
            rw [hvist]
            simp only [Bool.false_eq_true, false_iff]
            intro hx
            exact hx.2 hg3v
          · rw [hvis u hu]
            constructor
            · rintro ⟨h1, h2⟩; exact ⟨List.mem_cons_of_mem _ h1, h2⟩
            · rintro ⟨h1, h2⟩
              rcases List.mem_cons.mp h1 with h3 | h3
              · exact absurd h3 hut
              · exact ⟨h3, h2⟩
        cases hstep : stepOut N b.r b.c (reflect (g0.getD (b.r * N + b.c) 0) b.d) with
        | inr e =>
          refine Or.inr ⟨e, [b.r * N + b.c], _, rfl, rfl, hglen, ?_⟩
          intro u hu
          rw [hinv1 u hu]
          exact spinVal_mem_congr (by simp [Or.comm])
        | inl b2 =>
          have hb2 : Bvalid N b2 := stepOut_inl_valid hb.1 hb.2 hstep
          have hrec := ih ((b.r * N + b.c) :: C) grid visited b2 hb2 hglen hvlen
            hinv1 hinv2
          rcases hrec with ⟨hn1, hn2⟩ | ⟨e, cells, gf, hs1, hs2, hs3, hs4⟩
          · simp only [hn1, hn2]
            exact Or.inl ⟨trivial, trivial⟩
          · simp only [hs1, hs2]
            refine Or.inr ⟨e, (b.r * N + b.c) :: cells, gf, rfl, rfl, hs3, ?_⟩
            intro u hu
            rw [hs4 u hu]
            exact spinVal_mem_congr (by simp; tauto)

/-! ## Helpers for the per-character transform -/

theorem list_eq_of_getD {l1 l2 : List ℤ} (h1 : l1.length = l2.length)
    (h : ∀ u, u < l1.length → l1.getD u 0 = l2.getD u 0) : l1 = l2 := by
  apply List.ext_getElem h1
  intro i hi1 hi2
  have h3 := h i hi1
  rwa [getD_eq_getElem _ _ _ hi1, getD_eq_getElem _ _ _ hi2] at h3

theorem findIdx_lt_of_mem {l : List ℕ} {v : ℕ} (h : v ∈ l) :
    l.findIdx (fun x => x == v) < l.length :=
  List.findIdx_lt_length_of_exists ⟨v, h, by simp⟩

theorem findIdx_getD {l : List ℕ} {v : ℕ} (h : l.findIdx (fun x => x == v) < l.length) :
    l.getD (l.findIdx (fun x => x == v)) 0 = v := by
  have h2 := @List.findIdx_getElem ℕ (fun x => x == v) l h
  simp only [beq_iff_eq] at h2
  rw [getD_eq_getElem _ _ _ h]
  exact h2

theorem findIdx_eq_of_nodup {l : List ℕ} (hnd : l.Nodup) {i : ℕ} (hi : i < l.length) :
    l.findIdx (fun x => x == l.getD i 0) = i := by
  have hmem : l.getD i 0 ∈ l := by
    rw [getD_eq_getElem _ _ _ hi]
    exact List.getElem_mem hi
  have hflt : l.findIdx (fun x => x == l.getD i 0) < l.length := findIdx_lt_of_mem hmem
  have hfv : l.getD (l.findIdx (fun x => x == l.getD i 0)) 0 = l.getD i 0 :=
    findIdx_getD hflt
  rw [getD_eq_getElem _ _ _ hflt] at hfv
  rcases Nat.lt_trichotomy (l.findIdx (fun x => x == l.getD i 0)) i with h | h | h
  · exfalso
    have hfv2 := hfv.trans (getD_eq_getElem _ _ _ hi)
    exact Nat.ne_of_lt h ((hnd.getElem_inj_iff).mp hfv2)
  · exact h
  · exfalso
    have hne := List.not_of_lt_findIdx h
    simp only [beq_eq_false_iff_ne] at hne
    apply hne
    exact (getD_eq_getElem _ _ _ hi).symm

theorem escape_lt {N a b : ℕ} {c d : ℤ} {fuel x y : ℕ} (hx : x < 4 * N)
    (h : escape N a b c d fuel x = some y) : y < 4 * N := by
  obtain ⟨k, hk, _, _⟩ := escape_spec N a b c d fuel x y hx h
  rw [hk]
  exact Nat.mod_lt _ (by omega)

theorem roll_chars_out {N : ℕ} {perim : List ℕ} {s e : ℕ} {lS lE : ℤ}
    {p2 : List ℕ} {x y : ℤ} (hN : 0 < N)
    (h : mirrorfield_roll_chars N perim s e lS lE = some (p2, x, y)) :
    x = (s : ℤ) ∧ y = (e : ℤ) ∧
    ∃ rs re, rs < 4 * N ∧ re < 4 * N ∧
      escape N s e lS lE (escapeFuel N) ((s + perim.getD s 0 +
        perim.getD (if s = 0 then s + 1 else s - 1) 0) % (4 * N)) = some rs ∧
      escape N e s lE lS (escapeFuel N) ((e + perim.getD e 0 +
        perim.getD (if e = 0 then e + 1 else e - 1) 0) % (4 * N)) = some re ∧
      p2 = (if perim.getD e 0 < perim.getD s 0 then
          swapL (swapL perim s rs) e re
        else swapL (swapL perim e re) s rs) := by
  simp only [mirrorfield_roll_chars] at h
  cases hrs : escape N s e lS lE (escapeFuel N) ((s + perim.getD s 0 +
      perim.getD (if s = 0 then s + 1 else s - 1) 0) % (4 * N)) with
  | none => rw [hrs] at h; exact absurd h (by simp)
  | some rs =>
    cases hre : escape N e s lE lS (escapeFuel N) ((e + perim.getD e 0 +
        perim.getD (if e = 0 then e + 1 else e - 1) 0) % (4 * N)) with
    | none => rw [hrs, hre] at h; exact absurd h (by simp)
    | some re =>
      rw [hrs, hre] at h
      simp only [Option.some.injEq, Prod.mk.injEq] at h
      obtain ⟨hp, hx, hy⟩ := h
      refine ⟨hx.symm, hy.symm, rs, re, ?_, ?_, rfl, rfl, hp.symm⟩
      · exact escape_lt (Nat.mod_lt _ (by omega)) hrs
      · exact escape_lt (Nat.mod_lt _ (by omega)) hre

theorem roll_chars_perm {N : ℕ} {perim : List ℕ} {s e : ℕ} {lS lE : ℤ}
    {p2 : List ℕ} {x y : ℤ} (hlen : perim.length = 4 * N) (hs : s < 4 * N)
    (he : e < 4 * N)
    (h : mirrorfield_roll_chars N perim s e lS lE = some (p2, x, y)) :
    (↑p2 : Multiset ℕ) = (↑perim : Multiset ℕ) ∧ p2.length = 4 * N := by
  obtain ⟨-, -, rs, re, hrs4, hre4, -, -, hp⟩ := roll_chars_out (by omega) h
  subst hp
  by_cases hc : perim.getD e 0 < perim.getD s 0
  · rw [if_pos hc]
    constructor
    · rw [swapL_multiset _ _ _ (by simp [swapL, hlen]; omega) (by simp [swapL, hlen]; omega),
        swapL_multiset _ _ _ (by omega) (by omega)]
    · simp [swapL, hlen]
  · rw [if_neg hc]
    constructor
    · rw [swapL_multiset _ _ _ (by simp [swapL, hlen]; omega) (by simp [swapL, hlen]; omega),
        swapL_multiset _ _ _ (by omega) (by omega)]
    · simp [swapL, hlen]

theorem roll_chars_swap_lastargs (N : ℕ) (perim : List ℕ) (s e : ℕ) (lS lE : ℤ) :
    mirrorfield_roll_chars N perim s e lE lS = mirrorfield_roll_chars N perim s e lS lE := by
  simp only [mirrorfield_roll_chars]
  rw [escape_perm N s e lE lS s e lS lE (fun x => by tauto) (escapeFuel N)]
  rw [escape_perm N e s lS lE e s lE lS (fun x => by tauto) (escapeFuel N)]

/-- Rolling with the endpoints exchanged performs the same swaps in the same
order and only records the last pair in the opposite order. -/
theorem roll_chars_symm {N : ℕ} {perim : List ℕ} {s e : ℕ} {lS lE : ℤ}
    (hlen : perim.length = 4 * N) (hnd : perim.Nodup) (hs : s < 4 * N)
    (he : e < 4 * N) :
    mirrorfield_roll_chars N perim e s lS lE =
      (mirrorfield_roll_chars N perim s e lS lE).map
        (fun pr => (pr.1, pr.2.2, pr.2.1)) := by
  simp only [mirrorfield_roll_chars]
  rw [escape_perm N e s lS lE e s lE lS (fun x => by tauto) (escapeFuel N)]
  rw [escape_perm N s e lE lS s e lS lE (fun x => by tauto) (escapeFuel N)]
  cases hA : escape N s e lS lE (escapeFuel N) ((s + perim.getD s 0 +
      perim.getD (if s = 0 then s + 1 else s - 1) 0) % (4 * N)) with
  | none =>
    cases hB : escape N e s lE lS (escapeFuel N) ((e + perim.getD e 0 +
        perim.getD (if e = 0 then e + 1 else e - 1) 0) % (4 * N)) with
    | none => rfl
    | some re => rfl
  | some rs =>
    cases hB : escape N e s lE lS (escapeFuel N) ((e + perim.getD e 0 +
        perim.getD (if e = 0 then e + 1 else e - 1) 0) % (4 * N)) with
    | none => rfl
    | some re =>
      simp only [Option.map_some']
      rcases Nat.lt_trichotomy (perim.getD s 0) (perim.getD e 0) with hc | hc | hc
      · rw [if_pos hc, if_neg (by omega)]
      · have hse : s = e := by
          have hgs := getD_eq_getElem perim s 0 (by omega)
          have hge := getD_eq_getElem perim e 0 (by omega)
          rw [hgs, hge] at hc
          exact (hnd.getElem_inj_iff).mp hc
        subst hse
        rw [escape_perm N s s lE lS s s lS lE (fun x => by tauto) (escapeFuel N)] at hB
        rw [hA] at hB
        have hre : rs = re := by
          simpa using hB
        subst hre
        rfl
      · rw [if_neg (by omega), if_pos hc]

/-- Function `mirrorfield_crypt_char` does not distinguish states related by `simState`:
the two remembered roll positions only feed the symmetric collision tests. -/
theorem crypt_char_simState {N : ℕ} {st1 st2 : MFState} (h : simState st1 st2)
    (ch : ℕ) :
    mirrorfield_crypt_char N st1 ch = mirrorfield_crypt_char N st2 ch := by
  obtain ⟨g1, p1, e1, a1, b1⟩ := st1
  obtain ⟨g2, p2, e2, a2, b2⟩ := st2
  obtain ⟨hg, hp, he, hl⟩ := h
  simp only at hg hp he
  subst hg; subst hp; subst he
  rcases hl with ⟨h1, h2⟩ | ⟨h1, h2⟩ <;> simp only at h1 h2 <;> subst h1 <;> subst h2
  · rfl
  · simp only [mirrorfield_crypt_char]
    by_cases hlt : List.findIdx (fun x => x == ch) p1 < 4 * N
    · rw [if_pos hlt, if_pos hlt]
      cases htr : traverse N (4 * N * N) g1 (List.replicate (N * N) false)
          (entrySt N (List.findIdx (fun x => x == ch) p1)) with
      | none => rfl
      | some pr =>
        obtain ⟨e0, grid2⟩ := pr
        simp only
        rw [roll_chars_swap_lastargs]
    · rw [if_neg hlt, if_neg hlt]

theorem goodState_parts {N : ℕ} {st : MFState} (h : goodState N st) :
    st.grid.length = N * N ∧ st.perim.length = 4 * N ∧
      (∀ v ∈ st.grid, 0 ≤ v ∧ v ≤ 3) ∧ st.perim.Nodup := by
  obtain ⟨h1, h2, h3⟩ := h
  obtain ⟨h4, h5⟩ := (validate_iff_range_and_nodup _ _).mp h3
  exact ⟨h1, h2, h4, h5⟩

theorem replicate_getD_false {n u : ℕ} (hu : u < n) :
    (List.replicate n false).getD u false = false := by
  rw [getD_eq_getElem _ _ _ (by simpa using hu)]
  exact List.getElem_replicate ..

/-- Packaged run of the traversal loop on a fresh visited array: both the static
and the mutating traversal succeed within the fuel, exit at the same position,
and the final grid spins exactly the mirrors on the path. -/
theorem traverse_run {N : ℕ} {g0 : List ℤ} (hgl : g0.length = N * N)
    (hgv : ∀ v ∈ g0, 0 ≤ v ∧ v ≤ 3) {s : ℕ} (hs : s < 4 * N) :
    ∃ e cells gf,
      sTrav N g0 (4 * N * N) (entrySt N s) = some (e, cells) ∧
      traverse N (4 * N * N) g0 (List.replicate (N * N) false) (entrySt N s) =
        some (e, gf) ∧
      gf.length = N * N ∧ (∀ u, u < N * N → gf.getD u 0 = spinVal g0 cells u) ∧
      e < 4 * N := by
  have hequiv := traverse_eq_static hgl hgv (4 * N * N) [] g0
    (List.replicate (N * N) false) (entrySt N s) (entrySt_valid hs) hgl
    (by simp)
    (fun u hu => by simp [spinVal])
    (fun u hu => by
      rw [replicate_getD_false hu]
      simp)
  rcases hequiv with ⟨hn1, _⟩ | ⟨e, cells, gf, h1, h2, h3, h4⟩
  · exfalso
    obtain ⟨out, hout⟩ := sTrav_total g0 hs
    rw [hout] at hn1
    exact absurd hn1 (by simp)
  · refine ⟨e, cells, gf, h1, h2, h3, fun u hu => ?_, (sTrav_reverse hs h1).1⟩
    rw [h4 u hu]
    exact spinVal_mem_congr (by simp)

/-- Inversion of a successful `mirrorfield_crypt_char` call into its pieces. -/
theorem crypt_char_inversion {N : ℕ} {st : MFState} {ch c : ℕ} {st2 : MFState}
    (h : mirrorfield_crypt_char N st ch = some (c, st2)) :
    st.perim.findIdx (fun x => x == ch) < 4 * N ∧
    ∃ e grid2 perim2,
      traverse N (4 * N * N) st.grid (List.replicate (N * N) false)
        (entrySt N (st.perim.findIdx (fun x => x == ch))) = some (e, grid2) ∧
      mirrorfield_roll_chars N st.perim (st.perim.findIdx (fun x => x == ch)) e
        st.lastStart st.lastEnd =
        some (perim2, ((st.perim.findIdx (fun x => x == ch) : ℕ) : ℤ), (e : ℤ)) ∧
      st2 = ⟨grid2, perim2, (st.evenodd + 1) % 2,
        ((st.perim.findIdx (fun x => x == ch) : ℕ) : ℤ), (e : ℤ)⟩ ∧
      c = (if (st.perim.getD (st.perim.findIdx (fun x => x == ch)) 0 =
            st.perim.findIdx (fun x => x == ch) ∨ st.perim.getD e 0 = e) ∧
          (st.evenodd + 1) % 2 = 1 then
          st.perim.getD (st.perim.findIdx (fun x => x == ch)) 0
        else st.perim.getD e 0) := by
  simp only [mirrorfield_crypt_char] at h
  by_cases hlt : st.perim.findIdx (fun x => x == ch) < 4 * N
  · rw [if_pos hlt] at h
    refine ⟨hlt, ?_⟩
    cases htr : traverse N (4 * N * N) st.grid (List.replicate (N * N) false)
        (entrySt N (st.perim.findIdx (fun x => x == ch))) with
    | none => rw [htr] at h; exact absurd h (by simp)
    | some pr =>
      obtain ⟨e, grid2⟩ := pr
      rw [htr] at h
      simp only at h
      cases hro : mirrorfield_roll_chars N st.perim
          (st.perim.findIdx (fun x => x == ch)) e st.lastStart st.lastEnd with
      | none => rw [hro] at h; exact absurd h (by simp)
      | some pr2 =>
        obtain ⟨perim2, x, y⟩ := pr2
        have hN : 0 < N := by omega
        obtain ⟨hx, hy, -⟩ := roll_chars_out hN hro
        subst hx
        subst hy
        rw [hro] at h
        simp only [Option.some.injEq, Prod.mk.injEq] at h
        obtain ⟨hc2, hst⟩ := h
        exact ⟨e, grid2, perim2, rfl, hro, hst.symm, hc2.symm⟩
  · rw [if_neg hlt] at h
    exact absurd h (by simp)

theorem crypt_char_facts {N : ℕ} {st : MFState} {ch c : ℕ} {st2 : MFState}
    (hgood : goodState N st) (h : mirrorfield_crypt_char N st ch = some (c, st2)) :
    goodState N st2 ∧ (↑st2.perim : Multiset ℕ) = (↑st.perim : Multiset ℕ) ∧
      (∀ u, u < N * N → st2.grid.getD u 0 = st.grid.getD u 0 ∨
        (st.grid.getD u 0 ≠ 3 ∧ st2.grid.getD u 0 = (st.grid.getD u 0 + 1) % 3)) := by
  obtain ⟨hgl, hpl, hgv, hnd⟩ := goodState_parts hgood
  obtain ⟨hlt, e, grid2, perim2, htr, hro, hst, hc⟩ := crypt_char_inversion h
  obtain ⟨e2, cells, gf, hstrav, htr2, hgfl, hgfv, he4x⟩ := traverse_run hgl hgv hlt
  have halign := htr.symm.trans htr2
  simp only [Option.some.injEq, Prod.mk.injEq] at halign
  obtain ⟨he2, hgf⟩ := halign
  have he4 : e < 4 * N := by omega
  have hg2l : grid2.length = N * N := by rw [hgf]; exact hgfl
  have hg2v : ∀ u, u < N * N → grid2.getD u 0 = spinVal st.grid cells u := by
    intro u hu
    rw [hgf]
    exact hgfv u hu
  have hgdisj : ∀ u, u < N * N → grid2.getD u 0 = st.grid.getD u 0 ∨
      (st.grid.getD u 0 ≠ 3 ∧ grid2.getD u 0 = (st.grid.getD u 0 + 1) % 3) := by
    intro u hu
    rw [hg2v u hu]
    simp only [spinVal]
    by_cases hcnd : u ∈ cells ∧ st.grid.getD u 0 ≠ 3
    · rw [if_pos hcnd]
      exact Or.inr ⟨hcnd.2, rfl⟩
    · rw [if_neg hcnd]
      exact Or.inl rfl
  obtain ⟨hpm, hp2l⟩ := roll_chars_perm hpl hlt he4 hro
  have hp2nd : perim2.Nodup := by
    rw [← Multiset.coe_nodup, hpm, Multiset.coe_nodup]
    exact hnd
  have hg2bounds : ∀ v ∈ grid2, 0 ≤ v ∧ v ≤ 3 := by
    intro v hv
    obtain ⟨i, hi, hvi⟩ := List.mem_iff_getElem.mp hv
    have hiN : i < N * N := by omega
    have hgd : grid2.getD i 0 = v := by
      rw [getD_eq_getElem _ _ _ hi, hvi]
    obtain ⟨hb1, hb2⟩ := getD_mem_bounds hgv (t := i) (by omega)
    rcases hgdisj i hiN with hcase | ⟨hne3, hcase⟩
    · rw [← hgd, hcase]
      exact ⟨hb1, hb2⟩
    · rw [← hgd, hcase]
      constructor
      · exact Int.emod_nonneg _ (by norm_num)
      · have := Int.emod_lt_of_pos (st.grid.getD i 0 + 1) (show (0:ℤ) < 3 by norm_num)
        omega
  have hgood2 : goodState N st2 := by
    rw [hst]
    refine ⟨hg2l, by simpa using hp2l, ?_⟩
    rw [validate_iff_range_and_nodup]
    exact ⟨hg2bounds, hp2nd⟩
  refine ⟨hgood2, ?_, ?_⟩
  · rw [hst]
    exact hpm
  · intro u hu
    rw [hst]
    exact hgdisj u hu

/-- Forward construction of a `mirrorfield_crypt_char` call from its pieces. -/
theorem crypt_char_build {N : ℕ} {st : MFState} {ch : ℕ} {e : ℕ} {grid2 : List ℤ}
    {perim2 : List ℕ} {x y : ℤ}
    (hlt : st.perim.findIdx (fun v => v == ch) < 4 * N)
    (htr : traverse N (4 * N * N) st.grid (List.replicate (N * N) false)
      (entrySt N (st.perim.findIdx (fun v => v == ch))) = some (e, grid2))
    (hro : mirrorfield_roll_chars N st.perim (st.perim.findIdx (fun v => v == ch)) e
      st.lastStart st.lastEnd = some (perim2, x, y)) :
    mirrorfield_crypt_char N st ch = some
      ((if (st.perim.getD (st.perim.findIdx (fun v => v == ch)) 0 =
            st.perim.findIdx (fun v => v == ch) ∨ st.perim.getD e 0 = e) ∧
          (st.evenodd + 1) % 2 = 1 then
          st.perim.getD (st.perim.findIdx (fun v => v == ch)) 0
        else st.perim.getD e 0),
        ⟨grid2, perim2, (st.evenodd + 1) % 2, x, y⟩) := by
  simp only [mirrorfield_crypt_char]
  rw [if_pos hlt]
  simp only [htr]
  simp only [hro]

/-- Single-character involution: feeding the emitted character to an engine in
the same state emits the original character and produces the same state up to
swapping the remembered roll pair. -/
theorem crypt_char_invol {N : ℕ} {st : MFState} {ch c : ℕ} {st2 : MFState}
    (hgood : goodState N st) (h : mirrorfield_crypt_char N st ch = some (c, st2)) :
    ∃ st3, mirrorfield_crypt_char N st c = some (ch, st3) ∧ simState st3 st2 := by
  obtain ⟨hgl, hpl, hgv, hnd⟩ := goodState_parts hgood
  obtain ⟨hlt, e, grid2, perim2, htr, hro, hst, hc⟩ := crypt_char_inversion h
  have hps : st.perim.getD (st.perim.findIdx (fun x => x == ch)) 0 = ch :=
    findIdx_getD (by omega)
  obtain ⟨e2, cells, gf, hstrav, htr2, hgfl, hgfv, he4x⟩ := traverse_run hgl hgv hlt
  have halign := htr.symm.trans htr2
  simp only [Option.some.injEq, Prod.mk.injEq] at halign
  obtain ⟨he2, hgf⟩ := halign
  have he4 : e < 4 * N := by omega
  have hstrav2 : sTrav N st.grid (4 * N * N)
      (entrySt N (st.perim.findIdx (fun x => x == ch))) = some (e, cells) := by
    rw [hstrav, he2]
  by_cases hover : (st.perim.getD (st.perim.findIdx (fun x => x == ch)) 0 =
      st.perim.findIdx (fun x => x == ch) ∨ st.perim.getD e 0 = e) ∧
      (st.evenodd + 1) % 2 = 1
  · have hcc : c = ch := by
      rw [hc, if_pos hover, hps]
    refine ⟨st2, ?_, ⟨rfl, rfl, rfl, Or.inl ⟨rfl, rfl⟩⟩⟩
    rw [hcc] at h ⊢
    exact h
  · have hcc : c = st.perim.getD e 0 := by rw [hc, if_neg hover]
    by_cases hse : st.perim.findIdx (fun x => x == ch) = e
    · have hcc2 : c = ch := by rw [hcc, ← hse, hps]
      refine ⟨st2, ?_, ⟨rfl, rfl, rfl, Or.inl ⟨rfl, rfl⟩⟩⟩
      rw [hcc2] at h ⊢
      exact h
    · have hfind2 : st.perim.findIdx (fun x => x == c) = e := by
        rw [hcc]
        exact findIdx_eq_of_nodup hnd (by omega)
      obtain ⟨he4b, hrev⟩ := sTrav_reverse hlt hstrav2
      obtain ⟨e3, cells3, gf3, hstrav3, htr3, hgfl3, hgfv3, he3x⟩ :=
        traverse_run hgl hgv he4
      have halign2 := hstrav3.symm.trans hrev
      simp only [Option.some.injEq, Prod.mk.injEq] at halign2
      obtain ⟨he3, hcells3⟩ := halign2
      have hgfeq : gf3 = grid2 := by
        apply list_eq_of_getD
        · rw [hgfl3, hgf, hgfl]
        · intro u hu
          have huN : u < N * N := by rwa [hgfl3] at hu
          rw [hgfv3 u huN, hgf, hgfv u huN, hcells3]
          exact spinVal_mem_congr (by simp)
      have htr3b : traverse N (4 * N * N) st.grid (List.replicate (N * N) false)
          (entrySt N (st.perim.findIdx (fun x => x == c))) =
          some (st.perim.findIdx (fun x => x == ch), grid2) := by
        rw [hfind2, htr3, he3, hgfeq]
      have hrob : mirrorfield_roll_chars N st.perim
          (st.perim.findIdx (fun x => x == c)) (st.perim.findIdx (fun x => x == ch))
          st.lastStart st.lastEnd =
          some (perim2, (e : ℤ),
            ((st.perim.findIdx (fun x => x == ch) : ℕ) : ℤ)) := by
        rw [hfind2]
        rw [roll_chars_symm hpl hnd (by omega) he4, hro]
        rfl
      have hbuild := @crypt_char_build N st c _ _ _ _ _
        (by rw [hfind2]; exact he4) htr3b hrob
      refine ⟨⟨grid2, perim2, (st.evenodd + 1) % 2, (e : ℤ),
        ((st.perim.findIdx (fun x => x == ch) : ℕ) : ℤ)⟩, ?_, ?_⟩
      · rw [hbuild]
        congr 1
        rw [Prod.mk.injEq]
        refine ⟨?_, rfl⟩
        rw [if_neg ?_, hps]
        intro hx
        rw [hfind2] at hx
        exact hover ⟨Or.symm hx.1, hx.2⟩
      · rw [hst]
        exact ⟨rfl, rfl, rfl, Or.inr ⟨rfl, rfl⟩⟩

/-! ## Stream lemmas -/

theorem crypt_stream_aux (N : ℕ) :
    ∀ (M : List ℕ) (st1 st2 : MFState) (Cs : List ℕ) (stf : MFState),
      goodState N st1 → simState st2 st1 →
      crypt_stream N st1 M = some (Cs, stf) →
      ∃ stg, crypt_stream N st2 Cs = some (M, stg) := by
  intro M
  induction M with
  | nil =>
    intro st1 st2 Cs stf _ _ henc
    simp only [crypt_stream, Option.some.injEq, Prod.mk.injEq] at henc
    obtain ⟨h1, h2⟩ := henc
    subst h1
    exact ⟨st2, rfl⟩
  | cons m M ih =>
    intro st1 st2 Cs stf hgood hsim henc
    simp only [crypt_stream] at henc
    cases hc1 : mirrorfield_crypt_char N st1 m with
    | none => rw [hc1] at henc; exact absurd henc (by simp)
    | some pr =>
      obtain ⟨c1, st1b⟩ := pr
      rw [hc1] at henc
      simp only at henc
      cases hs1 : crypt_stream N st1b M with
      | none => rw [hs1] at henc; exact absurd henc (by simp)
      | some pr2 =>
        obtain ⟨Cs2, stf2⟩ := pr2
        rw [hs1] at henc
        simp only [Option.some.injEq, Prod.mk.injEq] at henc
        obtain ⟨hCs, hstf⟩ := henc
        obtain ⟨hgood1b, -, -⟩ := crypt_char_facts hgood hc1
        obtain ⟨st3, hdec, hsim3⟩ := crypt_char_invol hgood hc1
        have hc2 : mirrorfield_crypt_char N st2 c1 = some (m, st3) :=
          (crypt_char_simState hsim c1).trans hdec
        obtain ⟨stg, hstream2⟩ := ih st1b st3 Cs2 stf2 hgood1b hsim3 hs1
        refine ⟨stg, ?_⟩
        rw [← hCs]
        simp only [crypt_stream, hc2, hstream2]

/-- Claim C1: the cipher is an involution at the stream level.  Feeding the
ciphertext through a second engine loaded from the same key (same state,
including the fresh statics) returns the plaintext byte for byte. -/
theorem crypt_stream_involution (N : ℕ) (st : MFState) (M Cs : List ℕ)
    (stf : MFState) (hgood : goodState N st)
    (henc : crypt_stream N st M = some (Cs, stf)) :
    ∃ stg, crypt_stream N st Cs = some (M, stg) :=
  crypt_stream_aux N M st st Cs stf hgood ⟨rfl, rfl, rfl, Or.inl ⟨rfl, rfl⟩⟩ henc

theorem crypt_stream_state (N : ℕ) :
    ∀ (M : List ℕ) (st : MFState) (Cs : List ℕ) (stf : MFState),
      goodState N st → crypt_stream N st M = some (Cs, stf) →
      goodState N stf ∧ (↑stf.perim : Multiset ℕ) = (↑st.perim : Multiset ℕ) ∧
        (∀ u, u < N * N → st.grid.getD u 0 = 3 → stf.grid.getD u 0 = 3) := by
  intro M
  induction M with
  | nil =>
    intro st Cs stf hgood henc
    simp only [crypt_stream, Option.some.injEq, Prod.mk.injEq] at henc
    obtain ⟨h1, h2⟩ := henc
    subst h2
    exact ⟨hgood, rfl, fun u _ hu3 => hu3⟩
  | cons m M ih =>
    intro st Cs stf hgood henc
    simp only [crypt_stream] at henc
    cases hc1 : mirrorfield_crypt_char N st m with
    | none => rw [hc1] at henc; exact absurd henc (by simp)
    | some pr =>
      obtain ⟨c1, st1b⟩ := pr
      rw [hc1] at henc
      simp only at henc
      cases hs1 : crypt_stream N st1b M with
      | none => rw [hs1] at henc; exact absurd henc (by simp)
      | some pr2 =>
        obtain ⟨Cs2, stf2⟩ := pr2
        rw [hs1] at henc
        simp only [Option.some.injEq, Prod.mk.injEq] at henc
        obtain ⟨hCs, hstf⟩ := henc
        obtain ⟨hgood1b, hpm, hgd⟩ := crypt_char_facts hgood hc1
        obtain ⟨hgoodf, hpmf, hgdf⟩ := ih st1b Cs2 stf2 hgood1b hs1
        subst hstf
        refine ⟨hgoodf, hpmf.trans hpm, ?_⟩
        intro u hu hu3
        apply hgdf u hu
        rcases hgd u hu with hcase | ⟨hne3, _⟩
        · rw [hcase, hu3]
        · exact absurd hu3 hne3

/-- Claim C2: under any successful sequence of `crypt` calls on a validated key
the perimeter stays a permutation of its initial multiset, with no duplicates,
so each byte occupies exactly one slot. -/
theorem crypt_stream_perim_permutation (N : ℕ) (st : MFState) (M Cs : List ℕ)
    (stf : MFState) (hgood : goodState N st)
    (henc : crypt_stream N st M = some (Cs, stf)) :
    (↑stf.perim : Multiset ℕ) = (↑st.perim : Multiset ℕ) ∧ stf.perim.Nodup := by
  obtain ⟨hgoodf, hpm, -⟩ := crypt_stream_state N M st Cs stf hgood henc
  exact ⟨hpm, (goodState_parts hgoodf).2.2.2⟩

/-- Claim C3: under any successful sequence of `crypt` calls on a validated key
every grid cell stays within the codes `0..3` and every cell that was empty at
load time stays empty (a visited cell is never empty, so the un-spin never
touches a code-3 cell). -/
theorem crypt_stream_grid_invariant (N : ℕ) (st : MFState) (M Cs : List ℕ)
    (stf : MFState) (hgood : goodState N st)
    (henc : crypt_stream N st M = some (Cs, stf)) :
    (∀ v ∈ stf.grid, 0 ≤ v ∧ v ≤ 3) ∧
      (∀ u, u < N * N → st.grid.getD u 0 = 3 → stf.grid.getD u 0 = 3) := by
  obtain ⟨hgoodf, -, hg3⟩ := crypt_stream_state N M st Cs stf hgood henc
  exact ⟨(goodState_parts hgoodf).2.2.1, hg3⟩

/-! ## Totality: C10 -/

theorem roll_chars_total {N : ℕ} (perim : List ℕ) (s e : ℕ) (lS lE : ℤ)
    (hN : 2 ≤ N) :
    ∃ p2 x y, mirrorfield_roll_chars N perim s e lS lE = some (p2, x, y) := by
  have h4 : 0 < 4 * N := by omega
  obtain ⟨rs, hrs⟩ := escape_total N s e lS lE hN
    ((s + perim.getD s 0 + perim.getD (if s = 0 then s + 1 else s - 1) 0) % (4 * N))
    (Nat.mod_lt _ h4)
  obtain ⟨re, hre⟩ := escape_total N e s lE lS hN
    ((e + perim.getD e 0 + perim.getD (if e = 0 then e + 1 else e - 1) 0) % (4 * N))
    (Nat.mod_lt _ h4)
  cases hout : mirrorfield_roll_chars N perim s e lS lE with
  | some out => exact ⟨out.1, out.2.1, out.2.2, rfl⟩
  | none =>
    exfalso
    simp only [mirrorfield_roll_chars, hrs, hre] at hout
    exact absurd hout (by simp)

/-- Claim C10: on a validated key and an input byte present in the perimeter,
`mirrorfield_crypt_char` terminates: the traversal loop exits within the state
count of the grid and both collision loops of the roll exit within their fuel
(the grid side is `2 ≤ N`, as in the original `GRID_SIZE = 38`). -/
theorem crypt_char_total (N : ℕ) (st : MFState) (ch : ℕ) (hN : 2 ≤ N)
    (hgood : goodState N st) (hmem : ch ∈ st.perim) :
    ∃ out, mirrorfield_crypt_char N st ch = some out := by
  obtain ⟨hgl, hpl, hgv, hnd⟩ := goodState_parts hgood
  have hlt : st.perim.findIdx (fun x => x == ch) < 4 * N := by
    have := findIdx_lt_of_mem hmem
    omega
  obtain ⟨e, cells, gf, hstrav, htr, -, -, he4⟩ := traverse_run hgl hgv hlt
  obtain ⟨p2, x, y, hro⟩ := roll_chars_total st.perim
    (st.perim.findIdx (fun v => v == ch)) e st.lastStart st.lastEnd hN
  exact ⟨_, crypt_char_build hlt htr hro⟩

/-! ## Empty grids: C8 -/

theorem reflect_empty (d : Dir) : reflect 3 d = d := by
  simp [reflect]

theorem sstep_empty {N : ℕ} {g0 : List ℤ} (h3 : ∀ u, u < N * N → g0.getD u 0 = 3)
    {b : Beam} (hb : Bvalid N b) : sstep N g0 b = stepOut N b.r b.c b.d := by
  show stepOut N b.r b.c (reflect (g0.getD (cellIdx N b) 0) b.d) = _
  rw [h3 (cellIdx N b) (cellIdx_lt hb), reflect_empty]

theorem sTrav_empty_down {N : ℕ} {g0 : List ℤ} (h3 : ∀ u, u < N * N → g0.getD u 0 = 3) :
    ∀ (k r c : ℕ), r < N → c < N → N - r ≤ k →
      ∃ cells, sTrav N g0 k ⟨r, c, .down⟩ = some (c + 3 * N, cells) := by
  intro k
  induction k with
  | zero => intro r c hr hc hk; omega
  | succ m ih =>
    intro r c hr hc hk
    simp only [sTrav]
    rw [sstep_empty h3 ⟨hr, hc⟩]
    simp only [stepOut]
    by_cases hb : r + 1 = N
    · rw [if_pos hb]
      exact ⟨[cellIdx N ⟨r, c, .down⟩], rfl⟩
    · rw [if_neg hb]
      obtain ⟨cells, hrec⟩ := ih (r + 1) c (by omega) hc (by omega)
      refine ⟨cellIdx N ⟨r, c, .down⟩ :: cells, ?_⟩
      simp only [hrec]

theorem sTrav_empty_up {N : ℕ} {g0 : List ℤ} (h3 : ∀ u, u < N * N → g0.getD u 0 = 3) :
    ∀ (k r c : ℕ), r < N → c < N → r + 1 ≤ k →
      ∃ cells, sTrav N g0 k ⟨r, c, .up⟩ = some (c, cells) := by
  intro k
  induction k with
  | zero => intro r c hr hc hk; omega
  | succ m ih =>
    intro r c hr hc hk
    simp only [sTrav]
    rw [sstep_empty h3 ⟨hr, hc⟩]
    simp only [stepOut]
    by_cases hb : r = 0
    · rw [if_pos hb]
      exact ⟨[cellIdx N ⟨r, c, .up⟩], rfl⟩
    · rw [if_neg hb]
      obtain ⟨cells, hrec⟩ := ih (r - 1) c (by omega) hc (by omega)
      refine ⟨cellIdx N ⟨r, c, .up⟩ :: cells, ?_⟩
      simp only [hrec]

theorem sTrav_empty_left {N : ℕ} {g0 : List ℤ} (h3 : ∀ u, u < N * N → g0.getD u 0 = 3) :
    ∀ (k r c : ℕ), r < N → c < N → c + 1 ≤ k →
      ∃ cells, sTrav N g0 k ⟨r, c, .left⟩ = some (r + 2 * N, cells) := by
  intro k
  induction k with
  | zero => intro r c hr hc hk; omega
  | succ m ih =>
    intro r c hr hc hk
    simp only [sTrav]
    rw [sstep_empty h3 ⟨hr, hc⟩]
    simp only [stepOut]
    by_cases hb : c = 0
    · rw [if_pos hb]
      exact ⟨[cellIdx N ⟨r, c, .left⟩], rfl⟩
    · rw [if_neg hb]
      obtain ⟨cells, hrec⟩ := ih r (c - 1) hr (by omega) (by omega)
      refine ⟨cellIdx N ⟨r, c, .left⟩ :: cells, ?_⟩
      simp only [hrec]

theorem sTrav_empty_right {N : ℕ} {g0 : List ℤ} (h3 : ∀ u, u < N * N → g0.getD u 0 = 3) :
    ∀ (k r c : ℕ), r < N → c < N → N - c ≤ k →
      ∃ cells, sTrav N g0 k ⟨r, c, .right⟩ = some (r + N, cells) := by
  intro k
  induction k with
  | zero => intro r c hr hc hk; omega
  | succ m ih =>
    intro r c hr hc hk
    simp only [sTrav]
    rw [sstep_empty h3 ⟨hr, hc⟩]
    simp only [stepOut]
    by_cases hb : c + 1 = N
    · rw [if_pos hb]
      exact ⟨[cellIdx N ⟨r, c, .right⟩], rfl⟩
    · rw [if_neg hb]
      obtain ⟨cells, hrec⟩ := ih r (c + 1) hr (by omega) (by omega)
      refine ⟨cellIdx N ⟨r, c, .right⟩ :: cells, ?_⟩
      simp only [hrec]

/-- On a grid with no mirrors, the ray from slot `s` exits at the
opposite-edge mirror image of `s` within the standard fuel. -/
theorem sTrav_empty_exit {N : ℕ} {g0 : List ℤ} (h3 : ∀ u, u < N * N → g0.getD u 0 = 3)
    {s : ℕ} (hs : s < 4 * N) :
    ∃ cells, sTrav N g0 (4 * N * N) (entrySt N s) = some
      (if s < N then s + 3 * N
        else if s < 2 * N then s + N
        else if s < 3 * N then s - N
        else s - 3 * N, cells) := by
  have hN : 0 < N := by omega
  have hNN : N ≤ N * N := Nat.le_mul_of_pos_left N hN
  have h44 : 4 * N * N = 4 * (N * N) := by ring
  rcases Nat.lt_or_ge s N with h1 | h1
  · rw [entrySt_top h1]
    obtain ⟨cells, hc⟩ := sTrav_empty_down h3 (4 * N * N) 0 s hN h1 (by omega)
    rw [if_pos h1]
    exact ⟨cells, hc⟩
  · rcases Nat.lt_or_ge s (2 * N) with h2 | h2
    · rw [entrySt_right h1 h2]
      obtain ⟨cells, hc⟩ :=
        sTrav_empty_left h3 (4 * N * N) (s - N) (N - 1) (by omega) (by omega) (by omega)
      rw [if_neg (by omega), if_pos h2]
      refine ⟨cells, ?_⟩
      rw [hc]
      congr 2
      omega
    · rcases Nat.lt_or_ge s (3 * N) with hg3 | hg3
      · rw [entrySt_bottom h2 hg3]
        obtain ⟨cells, hc⟩ :=
          sTrav_empty_right h3 (4 * N * N) (s - 2 * N) 0 (by omega) hN (by omega)
        rw [if_neg (by omega), if_neg (by omega), if_pos hg3]
        refine ⟨cells, ?_⟩
        rw [hc]
        congr 2
        omega
      · rw [entrySt_left hg3]
        obtain ⟨cells, hc⟩ :=
          sTrav_empty_up h3 (4 * N * N) (N - 1) (s - 3 * N) (by omega) (by omega) (by omega)
        rw [if_neg (by omega), if_neg (by omega), if_neg (by omega)]
        exact ⟨cells, hc⟩

/-- Claim C8: on a validated key whose grid is entirely empty, a `crypt` call on
a byte present in the perimeter leaves every grid cell unchanged and exits at
the opposite-edge mirror image of the start slot (observable as the recorded
`lastEndCharPos`; `lastStartCharPos` records the start slot). -/
theorem crypt_char_empty_grid (N : ℕ) (st : MFState) (ch ech : ℕ) (st2 : MFState)
    (hgood : goodState N st) (hempty : ∀ u, u < N * N → st.grid.getD u 0 = 3)
    (h : mirrorfield_crypt_char N st ch = some (ech, st2)) :
    st2.grid = st.grid ∧
      st2.lastStart = ((st.perim.findIdx (fun x => x == ch) : ℕ) : ℤ) ∧
      (st.perim.findIdx (fun x => x == ch) < N →
        st2.lastEnd = ((st.perim.findIdx (fun x => x == ch) + 3 * N : ℕ) : ℤ)) ∧
      (N ≤ st.perim.findIdx (fun x => x == ch) →
        st.perim.findIdx (fun x => x == ch) < 2 * N →
        st2.lastEnd = ((st.perim.findIdx (fun x => x == ch) + N : ℕ) : ℤ)) ∧
      (2 * N ≤ st.perim.findIdx (fun x => x == ch) →
        st.perim.findIdx (fun x => x == ch) < 3 * N →
        st2.lastEnd = ((st.perim.findIdx (fun x => x == ch) - N : ℕ) : ℤ)) ∧
      (3 * N ≤ st.perim.findIdx (fun x => x == ch) →
        st2.lastEnd = ((st.perim.findIdx (fun x => x == ch) - 3 * N : ℕ) : ℤ)) := by
  obtain ⟨hgl, hpl, hgv, hnd⟩ := goodState_parts hgood
  obtain ⟨hlt, e, grid2, perim2, htr, hro, hst, hc⟩ := crypt_char_inversion h
  obtain ⟨e2, cells, gf, hstrav, htr2, hgfl, hgfv, he4x⟩ := traverse_run hgl hgv hlt
  have halign := htr.symm.trans htr2
  simp only [Option.some.injEq, Prod.mk.injEq] at halign
  obtain ⟨he2, hgf⟩ := halign
  obtain ⟨cells2, hexit⟩ := sTrav_empty_exit hempty hlt
  have halign2 := hstrav.symm.trans hexit
  simp only [Option.some.injEq, Prod.mk.injEq] at halign2
  obtain ⟨he3, -⟩ := halign2
  have hgrid_eq : grid2 = st.grid := by
    rw [hgf]
    apply list_eq_of_getD (by rw [hgfl, hgl])
    intro u hu
    have huN : u < N * N := by rwa [hgfl] at hu
    rw [hgfv u huN]
    simp only [spinVal]
    rw [if_neg (fun hx => hx.2 (hempty u huN))]
  have hee : e = (if st.perim.findIdx (fun x => x == ch) < N then
      st.perim.findIdx (fun x => x == ch) + 3 * N
    else if st.perim.findIdx (fun x => x == ch) < 2 * N then
      st.perim.findIdx (fun x => x == ch) + N
    else if st.perim.findIdx (fun x => x == ch) < 3 * N then
      st.perim.findIdx (fun x => x == ch) - N
    else st.perim.findIdx (fun x => x == ch) - 3 * N) := by
    rw [he2, he3]
  rw [hst]
  refine ⟨hgrid_eq, rfl, ?_, ?_, ?_, ?_⟩
  · intro hr1
    show ((e : ℕ) : ℤ) = _
    rw [hee, if_pos hr1]
  · intro hr1 hr2
    show ((e : ℕ) : ℤ) = _
    rw [hee, if_neg (by omega), if_pos hr2]
  · intro hr1 hr2
    show ((e : ℕ) : ℤ) = _
    rw [hee, if_neg (by omega), if_neg (by omega), if_pos hr2]
  · intro hr1
    show ((e : ℕ) : ℤ) = _
    rw [hee, if_neg (by omega), if_neg (by omega), if_neg (by omega)]

/-! ## Concrete witnesses -/

/-- Witness for `crypt_stream_involution` on a concrete key and message. -/
theorem crypt_stream_involution_witness :
    ∃ stg, crypt_stream 2 (freshState [0, 3, 2, 1] [10, 20, 30, 40, 50, 60, 70, 80])
      [50, 70] = some ([10, 30], stg) :=
  crypt_stream_involution 2
    (freshState [0, 3, 2, 1] [10, 20, 30, 40, 50, 60, 70, 80]) [10, 30] [50, 70]
    ⟨[2, 3, 2, 1], [50, 20, 60, 70, 40, 30, 10, 80], 0, 2, 4⟩
    ⟨rfl, rfl, by decide⟩ (by decide)

/-- Witness for `crypt_stream_perim_permutation` on the same run. -/
theorem crypt_stream_perim_permutation_witness :
    (↑([50, 20, 60, 70, 40, 30, 10, 80] : List ℕ) : Multiset ℕ) =
      (↑([10, 20, 30, 40, 50, 60, 70, 80] : List ℕ) : Multiset ℕ) ∧
      ([50, 20, 60, 70, 40, 30, 10, 80] : List ℕ).Nodup :=
  crypt_stream_perim_permutation 2
    (freshState [0, 3, 2, 1] [10, 20, 30, 40, 50, 60, 70, 80]) [10, 30] [50, 70]
    ⟨[2, 3, 2, 1], [50, 20, 60, 70, 40, 30, 10, 80], 0, 2, 4⟩
    ⟨rfl, rfl, by decide⟩ (by decide)

/-- Witness for `crypt_stream_grid_invariant` on the same run. -/
theorem crypt_stream_grid_invariant_witness :
    (∀ v ∈ ([2, 3, 2, 1] : List ℤ), 0 ≤ v ∧ v ≤ 3) ∧
      (∀ u, u < 2 * 2 → ([0, 3, 2, 1] : List ℤ).getD u 0 = 3 →
        ([2, 3, 2, 1] : List ℤ).getD u 0 = 3) :=
  crypt_stream_grid_invariant 2
    (freshState [0, 3, 2, 1] [10, 20, 30, 40, 50, 60, 70, 80]) [10, 30] [50, 70]
    ⟨[2, 3, 2, 1], [50, 20, 60, 70, 40, 30, 10, 80], 0, 2, 4⟩
    ⟨rfl, rfl, by decide⟩ (by decide)

/-- Witness for `crypt_char_empty_grid` on a mirror-free key. -/
theorem crypt_char_empty_grid_witness :
    (⟨[3, 3, 3, 3], [10, 20, 60, 40, 70, 30, 50, 80], 1, 2, 4⟩ : MFState).grid =
        (freshState [3, 3, 3, 3] [10, 20, 30, 40, 50, 60, 70, 80]).grid ∧
      (⟨[3, 3, 3, 3], [10, 20, 60, 40, 70, 30, 50, 80], 1, 2, 4⟩ : MFState).lastStart =
        (((freshState [3, 3, 3, 3] [10, 20, 30, 40, 50, 60, 70, 80]).perim.findIdx
          (fun x => x == 30) : ℕ) : ℤ) ∧
      ((freshState [3, 3, 3, 3] [10, 20, 30, 40, 50, 60, 70, 80]).perim.findIdx
          (fun x => x == 30) < 2 →
        (⟨[3, 3, 3, 3], [10, 20, 60, 40, 70, 30, 50, 80], 1, 2, 4⟩ : MFState).lastEnd =
          (((freshState [3, 3, 3, 3] [10, 20, 30, 40, 50, 60, 70, 80]).perim.findIdx
            (fun x => x == 30) + 3 * 2 : ℕ) : ℤ)) ∧
      (2 ≤ (freshState [3, 3, 3, 3] [10, 20, 30, 40, 50, 60, 70, 80]).perim.findIdx
          (fun x => x == 30) →
        (freshState [3, 3, 3, 3] [10, 20, 30, 40, 50, 60, 70, 80]).perim.findIdx
          (fun x => x == 30) < 2 * 2 →
        (⟨[3, 3, 3, 3], [10, 20, 60, 40, 70, 30, 50, 80], 1, 2, 4⟩ : MFState).lastEnd =
          (((freshState [3, 3, 3, 3] [10, 20, 30, 40, 50, 60, 70, 80]).perim.findIdx
            (fun x => x == 30) + 2 : ℕ) : ℤ)) ∧
      (2 * 2 ≤ (freshState [3, 3, 3, 3] [10, 20, 30, 40, 50, 60, 70, 80]).perim.findIdx
          (fun x => x == 30) →
        (freshState [3, 3, 3, 3] [10, 20, 30, 40, 50, 60, 70, 80]).perim.findIdx
          (fun x => x == 30) < 3 * 2 →
        (⟨[3, 3, 3, 3], [10, 20, 60, 40, 70, 30, 50, 80], 1, 2, 4⟩ : MFState).lastEnd =
          (((freshState [3, 3, 3, 3] [10, 20, 30, 40, 50, 60, 70, 80]).perim.findIdx
            (fun x => x == 30) - 2 : ℕ) : ℤ)) ∧
      (3 * 2 ≤ (freshState [3, 3, 3, 3] [10, 20, 30, 40, 50, 60, 70, 80]).perim.findIdx
          (fun x => x == 30) →
        (⟨[3, 3, 3, 3], [10, 20, 60, 40, 70, 30, 50, 80], 1, 2, 4⟩ : MFState).lastEnd =
          (((freshState [3, 3, 3, 3] [10, 20, 30, 40, 50, 60, 70, 80]).perim.findIdx
            (fun x => x == 30) - 3 * 2 : ℕ) : ℤ)) :=
  crypt_char_empty_grid 2 (freshState [3, 3, 3, 3] [10, 20, 30, 40, 50, 60, 70, 80])
    30 50 ⟨[3, 3, 3, 3], [10, 20, 60, 40, 70, 30, 50, 80], 1, 2, 4⟩
    ⟨rfl, rfl, by decide⟩ (by decide) (by decide)

/-- Witness for `crypt_char_total` on a concrete key. -/
theorem crypt_char_total_witness :
    ∃ out, mirrorfield_crypt_char 2
      (freshState [0, 3, 2, 1] [10, 20, 30, 40, 50, 60, 70, 80]) 10 = some out :=
  crypt_char_total 2 (freshState [0, 3, 2, 1] [10, 20, 30, 40, 50, 60, 70, 80]) 10
    (by decide) ⟨rfl, rfl, by decide⟩ (by decide)

end Mrrcrypt
